import Mathlib

/-!
Verification development for the `argfuscator.py` command-line obfuscator.

The Python source is shallowly embedded: strings are `List Char`, the
process-wide random generator is a draw function `g : ℕ → ℚ` indexed by the
number of `random.random()` calls made so far (each embedded technique
threads the current index `k`), and the structured random primitives
(`random.choice`, `random.randint`, `random.sample`, `random.shuffle`) are
an explicit oracle record.  Python's ASCII-level character predicates
(`str.isspace`, `str.lower`, `str.isalpha`, `\d`, `\w`) are modelled on
their ASCII core, which is the range exercised by every claim.
-/

namespace Argfuscator

open scoped List

/-- Model of Python `str.isspace` for one character (ASCII core). -/
def isspace (c : Char) : Bool :=
  c = ' ' || c = '\t' || c = '\n' || c = '\x0d' || c = '\x0b' || c = '\x0c'

/-- Model of Python `str.lower` on one character (ASCII core). -/
def pylower (c : Char) : Char :=
  if 'A' ≤ c ∧ c ≤ 'Z' then Char.ofNat (c.toNat + 32) else c

/-- Model of Python `str.upper` on one character (ASCII core). -/
def pyupper (c : Char) : Char :=
  if 'a' ≤ c ∧ c ≤ 'z' then Char.ofNat (c.toNat - 32) else c

/-- Model of Python `str.isalpha` on one character (ASCII core). -/
def isalpha (c : Char) : Bool :=
  ('a' ≤ c && c ≤ 'z') || ('A' ≤ c && c ≤ 'Z')

/-- Model of the regex class `\d` on one character (ASCII core). -/
def isdigit (c : Char) : Bool := '0' ≤ c && c ≤ '9'

/-- Model of the regex class `\w` on one character (ASCII core). -/
def iswordchar (c : Char) : Bool := isalpha c || isdigit c || c = '_'

/-- Python `str.strip` of trailing whitespace (used below to build `pyStrip`). -/
def rstrip (l : List Char) : List Char :=
  ((l.reverse).dropWhile isspace).reverse

/-- Model of Python `str.strip` (both ends, default whitespace set). -/
def pyStrip (l : List Char) : List Char :=
  (rstrip l).dropWhile isspace

/-- Token types assigned by `_tokenize_command` in `argfuscator.py`. -/
inductive TokenType where
  | command
  | argument
  | url
  | file_path
  | reg_path
deriving DecidableEq, Repr

/-- A classified token: the `{"type": ..., "value": ...}` dict of the source. -/
structure Token where
  type : TokenType
  value : List Char
deriving DecidableEq, Repr

instance : Inhabited Token := ⟨⟨TokenType.command, []⟩⟩

/-- Quote-state transition of the tokenizer loop of `_tokenize_command`:
entering on an unquoted quote char, exiting on the matching quote char,
unchanged on a mismatched quote char. -/
def qnext (inQ : Option Char) (c : Char) : Option Char :=
  match inQ with
  | none => some c
  | some q => if c = q then none else some q

/-- The character scan of `_tokenize_command` (before classification):
splits on whitespace outside quote state, keeps quote characters in the
token text, flushes a nonempty trailing token at end of input. -/
def tokCore : List Char → Option Char → List Char → List (List Char) →
    List (List Char)
  | [], _, cur, toks => if cur ≠ [] then toks ++ [cur] else toks
  | c :: rest, inQ, cur, toks =>
    if c = '"' ∨ c = '\'' then
      tokCore rest (qnext inQ c) (cur ++ [c]) toks
    else if isspace c ∧ inQ = none then
      if cur ≠ [] then tokCore rest inQ [] (toks ++ [cur])
      else tokCore rest inQ [] toks
    else
      tokCore rest inQ (cur ++ [c]) toks

/-- `sub.isInfixOf l` as an executable check (used for `"http" in token`). -/
def infixOf (sub l : List Char) : Bool :=
  match l with
  | [] => sub = []
  | _ :: rest => sub.isPrefixOf l || infixOf sub rest

/-- The classification step of `_tokenize_command`: index 0 is `command`;
a leading `-` or `/` gives `argument`; a `:` plus `http`/`https` substring
(case-insensitive) gives `url`; a `\` or `/` gives `file_path`; a
`HKLM\`/`HKCU\` front gives `reg_path`; otherwise `argument`. -/
def classifyTok (i : ℕ) (t : List Char) : Token :=
  if i = 0 then ⟨TokenType.command, t⟩
  else if t.head? = some '-' ∨ t.head? = some '/' then ⟨TokenType.argument, t⟩
  else if ':' ∈ t ∧ (infixOf ("http".toList) (t.map pylower) ∨
      infixOf ("https".toList) (t.map pylower)) then ⟨TokenType.url, t⟩
  else if '\\' ∈ t ∨ '/' ∈ t then ⟨TokenType.file_path, t⟩
  else if ("HKLM\\".toList).isPrefixOf t ∨ ("HKCU\\".toList).isPrefixOf t then
    ⟨TokenType.reg_path, t⟩
  else ⟨TokenType.argument, t⟩

/-- Embedding of `_tokenize_command`: scan, then classify each token by its
position. -/
def tokenize_command (command : List Char) : List Token :=
  (tokCore command none [] []).enum.map (fun p => classifyTok p.1 p.2)

/-- The mutable character tables of `CommandLineObfuscator.__init__`
(`self.char_substitutions`, `self.insertion_chars`, `self.option_chars`,
`self.windows_programs`, `self.unix_programs`).  The substitution dict is
an insertion-ordered association list, like a Python dict. -/
structure Tables where
  char_substitutions : List (Char × Char)
  insertion_chars : List Char
  option_chars : List Char
  windows_programs : List (List Char)
  unix_programs : List (List Char)
deriving DecidableEq, Repr

/-- The built-in defaults of `__init__` in `argfuscator.py`. -/
def defaultTables : Tables where
  char_substitutions :=
    [('a', 'ᵃ'), ('b', 'ᵇ'), ('c', 'ᶜ'), ('d', 'ᵈ'), ('e', 'ᵉ'), ('f', 'ᶠ'),
     ('g', 'ᵍ'), ('h', 'ʰ'), ('j', 'ʲ'), ('k', 'ᵏ'), ('l', 'ˡ'), ('m', 'ᵐ'),
     ('n', 'ⁿ'), ('o', 'ᵒ'), ('p', 'ᵖ'), ('r', 'ʳ'), ('s', 'ˢ'), ('t', 'ᵗ'),
     ('u', 'ᵘ'), ('v', 'ⱽ'), ('w', 'ʷ'), ('x', 'ˣ'), ('y', 'ʸ'), ('z', 'ᶻ')]
  insertion_chars :=
    ['­', '͏', '͸', '͹', 'Ϳ', '΀',
     '΁', '΂', '΃', '΋', '΍', '΢',
     '԰', '՗', '՘', '֋', '֌']
  option_chars := ['-', '/', '﹣']
  windows_programs :=
    ["taskkill", "reg", "powershell", "certutil", "mshta", "msiexec",
     "ping", "curl", "cmd", "wmic", "bitsadmin", "sc", "wscript",
     "cscript", "regsvr32", "rundll32"].map String.toList
  unix_programs :=
    ["curl", "wget", "bash", "sh", "osascript", "python", "perl",
     "nc", "ncat", "ssh", "scp", "rsync"].map String.toList

/-- Dict lookup (`key in d` / `d[key]`) on the association-list model. -/
def dictFind (d : List (Char × Char)) (k : Char) : Option Char :=
  match d with
  | [] => none
  | (k', v) :: rest => if k' = k then some v else dictFind rest k

/-- One key of Python `dict.update`: overwrite an existing key in place,
append a new key at the end. -/
def setKey (d : List (Char × Char)) (k v : Char) : List (Char × Char) :=
  match d with
  | [] => [(k, v)]
  | (k', v') :: rest => if k' = k then (k, v) :: rest else (k', v') :: setKey rest k v

/-- Python `dict.update` on the association-list model. -/
def dictUpdate (d u : List (Char × Char)) : List (Char × Char) :=
  u.foldl (fun acc kv => setKey acc kv.1 kv.2) d

/-- Oracle for the structured random primitives of the `random` module.
`random.random()` draws are read from the separate stream `g : ℕ → ℚ`;
these primitives consume generator state Python-side but none of the
verified statements depends on that coupling. -/
structure Oracle where
  choiceChar : List Char → Char
  randint : ℕ → ℕ → ℕ
  sample : List ℕ → ℕ → List ℕ
  shuffle : List Token → List Token

section Techniques

variable (T : Tables) (O : Oracle) (g : ℕ → ℚ)

/-- `_apply_character_substitution`: gate draw, then for each character whose
lowercase form is a substitution key, one further draw decides whether to
substitute.  The inner `and` short-circuits, so no draw is consumed for a
character that is not a key. -/
def apply_character_substitution (tok : Token) (prob : ℚ) (k : ℕ) :
    Token × ℕ :=
  if g k > prob then (tok, k + 1)
  else if ¬(tok.type = TokenType.argument ∨ tok.type = TokenType.command) then
    (tok, k + 1)
  else
    let r := tok.value.foldl
      (fun (p : List Char × ℕ) c =>
        match dictFind T.char_substitutions (pylower c) with
        | none => (p.1 ++ [c], p.2)
        | some rep =>
          if g p.2 < prob then (p.1 ++ [rep], p.2 + 1)
          else (p.1 ++ [c], p.2 + 1))
      ([], k + 1)
    (⟨tok.type, r.1⟩, r.2)

/-- `_apply_random_case`: gate draw, then one draw per alphabetic character
deciding upper (draw below one half) or lower case. -/
def apply_random_case (tok : Token) (prob : ℚ) (k : ℕ) : Token × ℕ :=
  if g k > prob then (tok, k + 1)
  else if ¬(tok.type = TokenType.argument ∨ tok.type = TokenType.command ∨
      tok.type = TokenType.file_path) then (tok, k + 1)
  else
    let r := tok.value.foldl
      (fun (p : List Char × ℕ) c =>
        if isalpha c then
          if g p.2 < mkRat 1 2 then (p.1 ++ [pyupper c], p.2 + 1)
          else (p.1 ++ [pylower c], p.2 + 1)
        else (p.1 ++ [c], p.2))
      ([], k + 1)
    (⟨tok.type, r.1⟩, r.2)

/-- `_apply_option_character_substitution`: gate draw; applicable to an
`argument` token whose text starts with `-` or `/` (hardcoded, not the
configured set); replaces the leading character with `random.choice` over
the configured option characters different from it, a no-op when that
filtered list is empty. -/
def apply_option_character_substitution (tok : Token) (prob : ℚ) (k : ℕ) :
    Token × ℕ :=
  if g k > prob then (tok, k + 1)
  else if ¬(tok.type = TokenType.argument ∧
      (tok.value.head? = some '-' ∨ tok.value.head? = some '/')) then
    (tok, k + 1)
  else
    match tok.value with
    | [] => (tok, k + 1)
    | cur :: restv =>
      let available := T.option_chars.filter (fun c => c ≠ cur)
      if available = [] then (tok, k + 1)
      else (⟨tok.type, O.choiceChar available :: restv⟩, k + 1)

/-- `_apply_character_insertion`: gate draw, then one draw per character
deciding whether to insert `random.choice(self.insertion_chars)` after it. -/
def apply_character_insertion (tok : Token) (prob : ℚ) (k : ℕ) : Token × ℕ :=
  if g k > prob then (tok, k + 1)
  else if ¬(tok.type = TokenType.argument) then (tok, k + 1)
  else
    let r := tok.value.foldl
      (fun (p : List Char × ℕ) c =>
        if g p.2 < prob then
          (p.1 ++ [c, O.choiceChar T.insertion_chars], p.2 + 1)
        else (p.1 ++ [c], p.2 + 1))
      ([], k + 1)
    (⟨tok.type, r.1⟩, r.2)

/-- `_apply_quote_insertion`: gate draw; skipped when the value is wrapped in
matching quotes; otherwise one draw per character, wrapping a non-quote
character in double quotes on success.  (The `in_quotes` local of the source
is never set to `True`, so only the quote-character test matters.) -/
def apply_quote_insertion (tok : Token) (prob : ℚ) (k : ℕ) : Token × ℕ :=
  if g k > prob then (tok, k + 1)
  else if ¬(tok.type = TokenType.argument ∨ tok.type = TokenType.file_path ∨
      tok.type = TokenType.url) then (tok, k + 1)
  else if (tok.value.head? = some '"' ∧ tok.value.getLast? = some '"') ∨
      (tok.value.head? = some '\'' ∧ tok.value.getLast? = some '\'') then
    (tok, k + 1)
  else
    let r := tok.value.foldl
      (fun (p : List Char × ℕ) c =>
        if g p.2 < prob ∧ ¬(c = '"' ∨ c = '\'') then
          (p.1 ++ ['"', c, '"'], p.2 + 1)
        else (p.1 ++ [c], p.2 + 1))
      ([], k + 1)
    (⟨tok.type, r.1⟩, r.2)

/-- `list.insert(i, v)` of Python (clamped append past the end). -/
def insAt : ℕ → Char → List Char → List Char := fun i v l =>
  match i, l with
  | 0, l => v :: l
  | _ + 1, [] => [v]
  | i + 1, a :: l => a :: insAt i v l

/-- `list.insert(i, v)` for lists of path components. -/
def insAtL : ℕ → List Char → List (List Char) → List (List Char) := fun i v l =>
  match i, l with
  | 0, l => v :: l
  | _ + 1, [] => [v]
  | i + 1, a :: l => a :: insAtL i v l

/-- Python `str.split(sep)` for a one-character separator (keeps empty
pieces, exactly like Python). -/
def splitSep (sep : Char) : List Char → List (List Char)
  | [] => [[]]
  | c :: rest =>
    let r := splitSep sep rest
    if c = sep then [] :: r
    else match r with
      | [] => [[c]]
      | p :: ps => (c :: p) :: ps

/-- `sep.join(parts)` of Python. -/
def joinSep (sep : Char) : List (List Char) → List Char
  | [] => []
  | [p] => p
  | p :: ps => p ++ sep :: joinSep sep ps

/-- `_apply_path_traversal`: gate draw; split the `file_path` value on `\`
if present, else on `/`; when more than two components, walk the interior
indices of the *original* length, and on a per-index draw insert `..` at
index `i` and then a copy of `parts[i-1]` (read from the already-shifted
list) at index `i+1`, exactly as the two `parts.insert` calls do. -/
def apply_path_traversal (tok : Token) (prob : ℚ) (k : ℕ) : Token × ℕ :=
  if g k > prob then (tok, k + 1)
  else if ¬(tok.type = TokenType.file_path) then (tok, k + 1)
  else if '\\' ∈ tok.value ∨ '/' ∈ tok.value then
    let sep : Char := if '\\' ∈ tok.value then '\\' else '/'
    let parts := splitSep sep tok.value
    if parts.length > 2 then
      let r := (List.range' 1 (parts.length - 2)).foldl
        (fun (p : List (List Char) × ℕ) i =>
          if g p.2 < prob then
            let p1 := insAtL i ("..".toList) p.1
            (insAtL (i + 1) (p1.getD (i - 1) []) p1, p.2 + 1)
          else (p.1, p.2 + 1))
        (parts, k + 1)
      (⟨tok.type, joinSep sep r.1⟩, r.2)
    else (⟨tok.type, joinSep sep parts⟩, k + 1)
  else (tok, k + 1)

/-- Decimal digit string of a natural number, as `str(int)` produces.  The
fuel bound of 32 covers every value below `10^32`. -/
def natToCharsAux : ℕ → ℕ → List Char → List Char
  | 0, _, acc => acc
  | fuel + 1, n, acc =>
    let d := Char.ofNat (48 + n % 10)
    if n < 10 then d :: acc else natToCharsAux fuel (n / 10) (d :: acc)

/-- `str(n)` for a natural number `n`. -/
def natToChars (n : ℕ) : List Char := natToCharsAux 32 n []

/-- `int(s)` for a string of decimal digits. -/
def parseNat (l : List Char) : ℕ :=
  l.foldl (fun acc c => 10 * acc + (c.toNat - 48)) 0

/-- The anchored regex `^\d{1,3}\.\d{1,3}\.\d{1,3}\.\d{1,3}$` as an
executable predicate: splitting on `.` yields exactly four pieces of one to
three digits each (digits cannot contain the separator, so the greedy match
and this decomposition agree). -/
def matchesQuad (l : List Char) : Prop :=
  (splitSep '.' l).length = 4 ∧
  ∀ p ∈ splitSep '.' l, (1 ≤ p.length ∧ p.length ≤ 3) ∧ p.all isdigit

instance (l : List Char) : Decidable (matchesQuad l) := by
  unfold matchesQuad; infer_instance

/-- `_apply_value_transformation`: gate draw; an `argument` token matching
the dotted-quad regex has its value replaced by
`str((o1<<24)+(o2<<16)+(o3<<8)+o4)`.  The `int` conversions cannot raise,
because the regex only admits digits, so the `except` clause is dead and
the embedding is total. -/
def apply_value_transformation (tok : Token) (prob : ℚ) (k : ℕ) : Token × ℕ :=
  if g k > prob then (tok, k + 1)
  else if tok.type = TokenType.argument ∧ matchesQuad tok.value then
    let parts := splitSep '.' tok.value
    let decimal := (parseNat (parts.getD 0 [])) * 2 ^ 24 +
      (parseNat (parts.getD 1 [])) * 2 ^ 16 +
      (parseNat (parts.getD 2 [])) * 2 ^ 8 + parseNat (parts.getD 3 [])
    (⟨tok.type, natToChars decimal⟩, k + 1)
  else (tok, k + 1)

/-- `_apply_option_separator_insertion`: gate draw; on an `argument` token,
rewrite `(-+)(\w+)(-)` to put a space before the trailing dash, else
rewrite `(-+)(\w+)(=)(.+)` to put a space before the `=`.  The regex is
embedded by its unique greedy decomposition (leading run of dashes, run of
word characters, then the required remainder). -/
def apply_option_separator_insertion (tok : Token) (prob : ℚ) (k : ℕ) :
    Token × ℕ :=
  if g k > prob then (tok, k + 1)
  else if ¬(tok.type = TokenType.argument) then (tok, k + 1)
  else
    let d := tok.value.takeWhile (fun c => c = '-')
    let rest := tok.value.dropWhile (fun c => c = '-')
    let w := rest.takeWhile iswordchar
    let rest2 := rest.dropWhile iswordchar
    if d ≠ [] ∧ w ≠ [] ∧ rest2 = ['-'] then
      (⟨tok.type, d ++ w ++ [' ', '-']⟩, k + 1)
    else if d ≠ [] ∧ w ≠ [] ∧ rest2.head? = some '=' ∧ rest2.tail ≠ [] then
      (⟨tok.type, d ++ w ++ ' ' :: rest2⟩, k + 1)
    else (tok, k + 1)

/-- `_apply_option_separator_deletion` (the per-token registry entry): gate
draw, then unconditionally return the token — the real work lives in the
sequence-level handler. -/
def apply_option_separator_deletion (tok : Token) (_prob : ℚ) (k : ℕ) :
    Token × ℕ :=
  (tok, k + 1)

/-- The pair predicate of `_handle_option_separator_deletion`: left token is
an `argument` starting with `-` or `/`, not ending in `=` or `:`, and the
right token is `argument`/`file_path`/`url`. -/
def osdPair (t1 t2 : Token) : Prop :=
  t1.type = TokenType.argument ∧
  (t1.value.head? = some '-' ∨ t1.value.head? = some '/') ∧
  ¬(t1.value.getLast? = some '=' ∨ t1.value.getLast? = some ':') ∧
  (t2.type = TokenType.argument ∨ t2.type = TokenType.file_path ∨
    t2.type = TokenType.url)

instance (t1 t2 : Token) : Decidable (osdPair t1 t2) := by
  unfold osdPair; infer_instance

/-- The scan loop of `_handle_option_separator_deletion`: a draw is taken
only for a qualifying pair; on success the two tokens are merged and the
scan advances past both; otherwise it advances by one.  The trailing
`if i < len(tokens)` append of the source is the `[t]` case. -/
def osdLoop (prob : ℚ) : List Token → ℕ → List Token × ℕ
  | [], k => ([], k)
  | [t], k => ([t], k)
  | t1 :: t2 :: rest, k =>
    if osdPair t1 t2 then
      if g k < prob then
        let r := osdLoop prob rest (k + 1)
        (⟨t1.type, t1.value ++ t2.value⟩ :: r.1, r.2)
      else
        let r := osdLoop prob (t2 :: rest) (k + 1)
        (t1 :: r.1, r.2)
    else
      let r := osdLoop prob (t2 :: rest) k
      (t1 :: r.1, r.2)

/-- `_handle_option_separator_deletion`: gate draw, then the pair scan. -/
def handle_option_separator_deletion (tokens : List Token) (prob : ℚ)
    (k : ℕ) : List Token × ℕ :=
  if g k > prob then (tokens, k + 1)
  else osdLoop g prob tokens (k + 1)

/-- Insertion into a sorted list of naturals (ascending). -/
def insSorted (n : ℕ) : List ℕ → List ℕ
  | [] => [n]
  | m :: rest => if n ≤ m then n :: m :: rest else m :: insSorted n rest

/-- Python `sorted` on a list of naturals (insertion sort). -/
def sortNat : List ℕ → List ℕ
  | [] => []
  | n :: rest => insSorted n (sortNat rest)

/-- The write-back loop of `_apply_option_reordering`:
`for new_idx, old_idx in enumerate(sorted(indices)): tokens[old_idx] =
shuffled[new_idx]`. -/
def setAll : List Token → List ℕ → List Token → List Token
  | l, i :: is', v :: vs => setAll (l.set i v) is' vs
  | l, _, _ => l

/-- Whether a token counts as a reorderable option in
`_apply_option_reordering` (and the same test in the deletion handler):
an `argument` whose text starts with `-` or `/`. -/
def isOptTok (t : Token) : Bool :=
  t.type = TokenType.argument &&
    (t.value.head? = some '-' || t.value.head? = some '/')

/-- `_apply_option_reordering`: gate draw; collect the indices of option
tokens; no-op when fewer than two; else `randint` picks how many to
shuffle, `sample` picks that many indices, the tokens at the sorted sampled
indices are read out, shuffled, and written back at those positions. -/
def apply_option_reordering (tokens : List Token) (prob : ℚ) (k : ℕ) :
    List Token × ℕ :=
  if g k > prob then (tokens, k + 1)
  else
    let optionIndices := (List.range tokens.length).filter
      (fun i => isOptTok (tokens.getD i default))
    if optionIndices.length < 2 then (tokens, k + 1)
    else
      let shuffleCount := O.randint 1 optionIndices.length
      let ixs := sortNat (O.sample optionIndices shuffleCount)
      let tokensToShuffle := ixs.map (fun i => tokens.getD i default)
      let shuffled := O.shuffle tokensToShuffle
      (setAll tokens ixs shuffled, k + 1)

end Techniques

/-- The keys of `self.modifiers` in their declaration order (which is also
the default technique order of `obfuscate_command`). -/
def allTechniqueNames : List (List Char) :=
  ["CharacterSubstitution", "RandomCase", "OptionCharacterSubstitution",
   "CharacterInsertion", "QuoteInsertion", "PathTraversal",
   "ValueTransformation", "OptionReordering", "OptionSeparatorInsertion",
   "OptionSeparatorDeletion"].map String.toList

/-- The `default_probs` dict of `obfuscate_command`. -/
def defaultProbs (name : List Char) : ℚ :=
  if name = "CharacterSubstitution".toList then mkRat 3 10
  else if name = "RandomCase".toList then mkRat 1 2
  else if name = "OptionCharacterSubstitution".toList then mkRat 2 5
  else if name = "CharacterInsertion".toList then mkRat 3 10
  else if name = "QuoteInsertion".toList then mkRat 3 10
  else if name = "PathTraversal".toList then mkRat 2 5
  else if name = "ValueTransformation".toList then mkRat 3 10
  else if name = "OptionReordering".toList then mkRat 2 5
  else if name = "OptionSeparatorInsertion".toList then mkRat 3 10
  else if name = "OptionSeparatorDeletion".toList then mkRat 3 10
  else 0

section Pipeline

variable (T : Tables) (O : Oracle) (g : ℕ → ℚ)

/-- The per-token dispatch `self.modifiers[technique](token, probs[technique])`
of the inner loop of `obfuscate_command`; an unknown name is skipped (and
consumes no draw).  A name still equal to `OptionReordering` at this point
would crash the Python process when its gate passes (the sequence-level pass
always removes the first occurrence, so this needs a duplicated name in the
caller's list); it is modelled as the token unchanged after its gate draw. -/
def dispatchTech (probs : List Char → ℚ) (name : List Char) (tok : Token)
    (k : ℕ) : Token × ℕ :=
  if name = "CharacterSubstitution".toList then
    apply_character_substitution T g tok (probs name) k
  else if name = "RandomCase".toList then
    apply_random_case g tok (probs name) k
  else if name = "OptionCharacterSubstitution".toList then
    apply_option_character_substitution T O g tok (probs name) k
  else if name = "CharacterInsertion".toList then
    apply_character_insertion T O g tok (probs name) k
  else if name = "QuoteInsertion".toList then
    apply_quote_insertion g tok (probs name) k
  else if name = "PathTraversal".toList then
    apply_path_traversal g tok (probs name) k
  else if name = "ValueTransformation".toList then
    apply_value_transformation g tok (probs name) k
  else if name = "OptionReordering".toList then
    (tok, k + 1)
  else if name = "OptionSeparatorInsertion".toList then
    apply_option_separator_insertion g tok (probs name) k
  else if name = "OptionSeparatorDeletion".toList then
    apply_option_separator_deletion tok (probs name) k
  else (tok, k)

/-- The inner loop `for technique in techniques` of `obfuscate_command`;
each modifier receives the token produced by the previous one (in the
source, all modifiers mutate the same dict in place). -/
def innerLoop (probs : List Char → ℚ) (ts : List (List Char)) (tok : Token)
    (k : ℕ) : Token × ℕ :=
  ts.foldl (fun (p : Token × ℕ) name => dispatchTech T O g probs name p.1 p.2)
    (tok, k)

/-- The outer loop `for i, token in enumerate(tokens)` of
`obfuscate_command`. -/
def outerLoop (probs : List Char → ℚ) (ts : List (List Char)) :
    List Token → ℕ → List Token × ℕ
  | [], k => ([], k)
  | t :: rest, k =>
    let p := innerLoop T O g probs ts t k
    let r := outerLoop probs ts rest p.2
    (p.1 :: r.1, r.2)

/-- Embedding of `obfuscate_command`.  The first component is the returned
string; the second is the caller's `techniques` list as it stands after the
call (the source removes `OptionReordering` and `OptionSeparatorDeletion`
from the caller-supplied list object in place; a `None` or empty argument
is replaced by a fresh list, leaving the caller's value untouched). -/
def obfuscate_command (command : List Char)
    (techniques : Option (List (List Char)))
    (probabilities : List Char → Option ℚ) :
    List Char × Option (List (List Char)) :=
  let tokens := tokenize_command command
  let probs : List Char → ℚ := fun n => (probabilities n).getD (defaultProbs n)
  let ts0 := match techniques with
    | none => allTechniqueNames
    | some l => if l = [] then allTechniqueNames else l
  let s1 : List Token × ℕ × List (List Char) :=
    if "OptionReordering".toList ∈ ts0 then
      let p := apply_option_reordering O g tokens
        (probs ("OptionReordering".toList)) 0
      (p.1, p.2, ts0.erase ("OptionReordering".toList))
    else (tokens, 0, ts0)
  let s2 : List Token × ℕ × List (List Char) :=
    if "OptionSeparatorDeletion".toList ∈ s1.2.2 then
      let p := handle_option_separator_deletion g s1.1
        (probs ("OptionSeparatorDeletion".toList)) s1.2.1
      (p.1, p.2, s1.2.2.erase ("OptionSeparatorDeletion".toList))
    else s1
  let fin := outerLoop T O g probs s2.2.2 s2.1 s2.2.1
  let result := pyStrip (fin.1.foldl (fun acc t => acc ++ t.value ++ [' ']) [])
  let postTs : Option (List (List Char)) := match techniques with
    | none => none
    | some l => if l = [] then some [] else some s2.2.2
  (result, postTs)

end Pipeline

/-- One optional key of a parsed configuration document.  `bad` stands for a
present value whose shape makes the merge statement raise (for example a
number where a list is expected); the exception is caught by the
surrounding `try`. -/
inductive CField (α : Type) where
  | absent
  | good (a : α)
  | bad
deriving DecidableEq

/-- A parsed configuration document (a JSON object with the five optional
keys `_load_config` consults).  `option_chars` is a plain assignment in the
source and cannot raise, so only its well-typed shape is modelled. -/
structure ConfigDoc where
  char_substitutions : CField (List (Char × Char))
  insertion_chars : CField (List Char)
  option_chars : Option (List Char)
  windows_programs : CField (List (List Char))
  unix_programs : CField (List (List Char))
deriving DecidableEq

/-- Embedding of `_load_config`.  `none` is an unreadable file or a document
`json.load` rejects: the exception fires before any merge, so the tables
are untouched and the error is reported (second component `true`).  With a
parsed document the five keys are merged in source order inside the same
`try`, so a `bad` value aborts the merge at that key, keeping every earlier
key's effect; the error is reported. -/
def load_config (doc : Option ConfigDoc) (t : Tables) : Tables × Bool :=
  match doc with
  | none => (t, true)
  | some d =>
    let t1 := match d.char_substitutions with
      | CField.absent => some t
      | CField.good m =>
        some { t with char_substitutions := dictUpdate t.char_substitutions m }
      | CField.bad => none
    match t1 with
    | none => (t, true)
    | some t1 =>
      let t2 := match d.insertion_chars with
        | CField.absent => some t1
        | CField.good l =>
          some { t1 with insertion_chars := t1.insertion_chars ++ l }
        | CField.bad => none
      match t2 with
      | none => (t1, true)
      | some t2 =>
        let t3 := match d.option_chars with
          | none => t2
          | some l => { t2 with option_chars := l }
        let t4 := match d.windows_programs with
          | CField.absent => some t3
          | CField.good l =>
            some { t3 with windows_programs := t3.windows_programs ++ l }
          | CField.bad => none
        match t4 with
        | none => (t3, true)
        | some t4 =>
          let t5 := match d.unix_programs with
            | CField.absent => some t4
            | CField.good l =>
              some { t4 with unix_programs := t4.unix_programs ++ l }
            | CField.bad => none
          match t5 with
          | none => (t4, true)
          | some t5 => (t5, false)

/-! ### Claim-side (specification) definitions -/

/-- Joining a list of token texts with single spaces, as the spec phrases
the reassembly ("joining the original tokens with single spaces"). -/
def joinSp : List (List Char) → List Char
  | [] => []
  | [t] => t
  | t :: ts => t ++ ' ' :: joinSp ts

/-- Leftmost collapse step of the reduction the spec describes for
`PathTraversal`, reading the triple rule literally: a window
`component, "..", component` with equal flanks is removed entirely
("collapsed to nothing"). -/
def collapseN : List (List Char) → Option (List (List Char))
  | a :: b :: c :: rest =>
    if b = "..".toList ∧ a = c then some rest
    else (collapseN (b :: c :: rest)).map (a :: ·)
  | _ => none

/-- Repeated leftmost application of `collapseN` to a fixed point.  The
fuel argument dominates the number of possible steps (each step removes
three entries). -/
def reduceNAux : ℕ → List (List Char) → List (List Char)
  | 0, l => l
  | fuel + 1, l =>
    match collapseN l with
    | some l2 => reduceNAux fuel l2
    | none => l

/-- The reduction of the claim, collapse-to-nothing reading. -/
def reduceN (l : List (List Char)) : List (List Char) := reduceNAux l.length l

/-- Leftmost collapse step with the resolution-faithful reading: a window
`component, "..", component` with equal flanks collapses to the single
component. -/
def collapseO : List (List Char) → Option (List (List Char))
  | a :: b :: c :: rest =>
    if b = "..".toList ∧ a = c then some (a :: rest)
    else (collapseO (b :: c :: rest)).map (a :: ·)
  | _ => none

/-- Repeated leftmost application of `collapseO` to a fixed point. -/
def reduceOAux : ℕ → List (List Char) → List (List Char)
  | 0, l => l
  | fuel + 1, l =>
    match collapseO l with
    | some l2 => reduceOAux fuel l2
    | none => l

/-- The reduction with triples collapsed to the single component. -/
def reduceO (l : List (List Char)) : List (List Char) := reduceOAux l.length l

/-- A fixed oracle used to instantiate concrete runs: `choice` takes the
head, `randint` its upper bound, `sample` a front segment, `shuffle`
reverses.  Each satisfies the contract of the Python primitive it stands
for on the inputs where it is used. -/
def oracle0 : Oracle where
  choiceChar := fun l => l.headD ' '
  randint := fun _ b => b
  sample := fun pop k => pop.take k
  shuffle := List.reverse

/-- The draw stream of the C1 counterexample: every `random.random()`
result is one half, except the seventeenth (index 16), which is zero.  All
values lie in `[0,1)`. -/
def gSpike : ℕ → ℚ := fun n => if n = 16 then 0 else mkRat 1 2

/-- The configuration document of the C8 counterexample: a well-shaped
`char_substitutions` object followed by a `windows_programs` value of the
wrong shape (whose `extend` raises). -/
def badDoc : ConfigDoc where
  char_substitutions := CField.good [('q', 'X')]
  insertion_chars := CField.absent
  option_chars := none
  windows_programs := CField.bad
  unix_programs := CField.absent

/-- The separator `_apply_path_traversal` selects: `\` when present, else
`/`. -/
def pathSepOf (v : List Char) : Char := if '\\' ∈ v then '\\' else '/'

/-- Claim-side emission step for `collapseWS`: before a retained character,
a single space is emitted when separating whitespace was skipped since the
last retained character and output exists. -/
def wsEmit (pend : Bool) (acc : List Char) (c : Char) : List Char :=
  (if pend ∧ acc ≠ [] then acc ++ [' '] else acc) ++ [c]

/-- Modelled from the claim's words: the input with every run of whitespace
outside quote state collapsed to a single space and leading/trailing
unquoted whitespace removed.  The quote state follows the same transition
as the tokenizer (`qnext`); `pend` records skipped separating whitespace. -/
def collapseWS : List Char → Option Char → Bool → List Char → List Char
  | [], _, _, acc => acc
  | c :: rest, inQ, pend, acc =>
    if c = '"' ∨ c = '\'' then
      collapseWS rest (qnext inQ c) false (wsEmit pend acc c)
    else if isspace c ∧ inQ = none then
      collapseWS rest inQ true acc
    else
      collapseWS rest inQ false (wsEmit pend acc c)

/-- Proof helper: the joined output corresponding to a tokenizer
accumulator state (`toks` flushed so far, `cur` in progress). -/
def J (toks : List (List Char)) (cur : List Char) : List Char :=
  if cur = [] then joinSp toks else joinSp (toks ++ [cur])

/-! ### Supporting lemmas -/

theorem splitSep_ne_nil (sep : Char) (l : List Char) : splitSep sep l ≠ [] := by
  cases l with
  | nil => simp [splitSep]
  | cons c rest =>
    simp only [splitSep]
    split
    · simp
    · split <;> simp_all

theorem splitSep_entries (sep : Char) (l : List Char) :
    ∀ p ∈ splitSep sep l, sep ∉ p := by
  induction l with
  | nil => intro p hp; simp [splitSep] at hp; simp [hp]
  | cons c rest ih =>
    intro p hp
    simp only [splitSep] at hp
    by_cases hc : c = sep
    · rw [if_pos hc] at hp
      rcases List.mem_cons.mp hp with h | h
      · simp [h]
      · exact ih p h
    · rw [if_neg hc] at hp
      rcases hr : splitSep sep rest with _ | ⟨q, qs⟩
      · exact absurd hr (splitSep_ne_nil sep rest)
      · rw [hr] at hp
        rcases List.mem_cons.mp hp with h | h
        · subst h
          intro hmem
          rcases List.mem_cons.mp hmem with h1 | h1
          · exact hc h1.symm
          · exact ih q (hr ▸ List.mem_cons_self q qs) h1
        · exact ih p (hr ▸ List.mem_cons_of_mem q h)

theorem splitSep_no_sep (sep : Char) (l : List Char)
    (h : ∀ c ∈ l, c ≠ sep) : splitSep sep l = [l] := by
  induction l with
  | nil => rfl
  | cons c rest ih =>
    have hc : c ≠ sep := h c (List.mem_cons_self c rest)
    have hrest := ih (fun d hd => h d (List.mem_cons_of_mem c hd))
    simp only [splitSep, if_neg hc, hrest]

theorem splitSep_append (sep : Char) (p rest : List Char)
    (h : ∀ c ∈ p, c ≠ sep) :
    splitSep sep (p ++ sep :: rest) = p :: splitSep sep rest := by
  induction p with
  | nil => simp [splitSep]
  | cons c q ih =>
    have hc : c ≠ sep := h c (List.mem_cons_self c q)
    have hq := ih (fun d hd => h d (List.mem_cons_of_mem c hd))
    simp only [List.cons_append, splitSep, if_neg hc]
    rw [List.append_eq, hq]

theorem splitSep_joinSep (sep : Char) (parts : List (List Char))
    (hne : parts ≠ []) (h : ∀ p ∈ parts, sep ∉ p) :
    splitSep sep (joinSep sep parts) = parts := by
  induction parts with
  | nil => exact absurd rfl hne
  | cons p ps ih =>
    cases ps with
    | nil =>
      have hp : ∀ c ∈ p, c ≠ sep := by
        intro c hc he
        exact h p (List.mem_cons_self p []) (he ▸ hc)
      simpa [joinSep] using splitSep_no_sep sep p hp
    | cons q qs =>
      have hp : ∀ c ∈ p, c ≠ sep := by
        intro c hc he
        exact h p (List.mem_cons_self p (q :: qs)) (he ▸ hc)
      have hrec := ih (by simp) (fun r hr => h r (List.mem_cons_of_mem p hr))
      simp only [joinSep, splitSep_append sep p _ hp, hrec]

theorem collapseO_none_of_no_dots (l : List (List Char))
    (h : "..".toList ∉ l) : collapseO l = none := by
  induction l with
  | nil => rfl
  | cons a rest ih =>
    match rest, ih with
    | [], _ => rfl
    | [b], _ => rfl
    | b :: c :: rest', ih =>
      simp only [collapseO]
      rw [if_neg, ih (fun hm => h (List.mem_cons_of_mem a hm))]
      · rfl
      · rintro ⟨hb, -⟩
        exact h (hb ▸ List.mem_cons_of_mem a (List.mem_cons_self b _))

theorem reduceOAux_of_none (l : List (List Char)) (h : collapseO l = none) :
    ∀ fuel, reduceOAux fuel l = l := by
  intro fuel
  cases fuel with
  | zero => rfl
  | succ fuel => simp only [reduceOAux, h]

theorem reduceO_of_no_dots (l : List (List Char)) (h : "..".toList ∉ l) :
    reduceO l = l :=
  reduceOAux_of_none l (collapseO_none_of_no_dots l h) _

/-- Python `list.insert` is take/cons/drop when the index is in range. -/
theorem insAtL_eq_take_drop :
    ∀ (i : ℕ) (v : List Char) (l : List (List Char)), i ≤ l.length →
      insAtL i v l = l.take i ++ v :: l.drop i := by
  intro i
  induction i with
  | zero => intro v l _; rfl
  | succ i ih =>
    intro v l h
    cases l with
    | nil => simp at h
    | cons a l =>
      show a :: insAtL i v l = a :: (l.take i ++ v :: l.drop i)
      rw [ih v l (Nat.le_of_succ_le_succ h)]

/-- One firing of the `_apply_path_traversal` insertion loop duplicates the
element just before the insertion point with a `..` in between. -/
def dupStep (l l' : List (List Char)) : Prop :=
  ∃ A x B, l = A ++ x :: "..".toList :: x :: B ∧ l' = A ++ x :: B

theorem dupStep_length (l l' : List (List Char)) (h : dupStep l l') :
    l.length = l'.length + 2 := by
  obtain ⟨A, x, B, rfl, rfl⟩ := h
  simp
  omega

theorem collapseO_length :
    ∀ (l m : List (List Char)), collapseO l = some m →
      l.length = m.length + 2 := by
  intro l
  induction l with
  | nil => intro m h; simp [collapseO] at h
  | cons a rest ih =>
    intro m h
    match rest, ih, h with
    | [], _, h => simp [collapseO] at h
    | [b], _, h => simp [collapseO] at h
    | b :: c :: rest3, ih, h =>
      simp only [collapseO] at h
      split at h
      · cases h
        simp
      · rcases hcol : collapseO (b :: c :: rest3) with _ | m0
        · rw [hcol] at h; cases h
        · rw [hcol] at h
          cases h
          have := ih m0 hcol
          simp at this ⊢
          omega

theorem collapseO_dupStep :
    ∀ (l m : List (List Char)), collapseO l = some m → dupStep l m := by
  intro l
  induction l with
  | nil => intro m h; simp [collapseO] at h
  | cons a rest ih =>
    intro m h
    match rest, ih, h with
    | [], _, h => simp [collapseO] at h
    | [b], _, h => simp [collapseO] at h
    | b :: c :: rest3, ih, h =>
      simp only [collapseO] at h
      split at h
      · cases h
        rename_i hr
        exact ⟨[], a, rest3, by rw [hr.1, hr.2]; rfl, rfl⟩
      · rcases hcol : collapseO (b :: c :: rest3) with _ | m0
        · rw [hcol] at h; cases h
        · rw [hcol] at h
          cases h
          obtain ⟨A, x, B, h1, h2⟩ := ih m0 hcol
          exact ⟨a :: A, x, B, by simp [h1], by simp [h2]⟩

theorem dupStep_collapseO :
    ∀ (A : List (List Char)) (x : List Char) (B : List (List Char)),
      ∃ m, collapseO (A ++ x :: "..".toList :: x :: B) = some m := by
  intro A
  induction A with
  | nil =>
    intro x B
    exact ⟨x :: B, by simp [collapseO]⟩
  | cons a A' ih =>
    intro x B
    obtain ⟨m0, hm0⟩ := ih x B
    have h3 : ∃ b c rest3,
        A' ++ x :: "..".toList :: x :: B = b :: c :: rest3 := by
      cases A' with
      | nil => exact ⟨x, "..".toList, x :: B, rfl⟩
      | cons a1 A2 =>
        cases A2 with
        | nil => exact ⟨a1, x, "..".toList :: x :: B, rfl⟩
        | cons a2 A3 =>
          exact ⟨a1, a2, A3 ++ x :: "..".toList :: x :: B, by simp⟩
    obtain ⟨b, c, rest3, hT⟩ := h3
    rw [hT] at hm0
    rw [List.cons_append, hT]
    show ∃ m, collapseO (a :: b :: c :: rest3) = some m
    simp only [collapseO]
    split
    · exact ⟨a :: rest3, rfl⟩
    · rw [hm0]
      exact ⟨a :: m0, rfl⟩

theorem reduceOAux_ge (fuel : ℕ) :
    ∀ (l : List (List Char)), l.length ≤ fuel →
      reduceOAux fuel l = reduceO l := by
  induction fuel using Nat.strong_induction_on with
  | _ fuel ih =>
    intro l hl
    rcases hcol : collapseO l with _ | m
    · rw [reduceOAux_of_none l hcol fuel]
      exact (reduceOAux_of_none l hcol l.length).symm
    · have hlen := collapseO_length l m hcol
      cases fuel with
      | zero => omega
      | succ f =>
        have h1 : reduceOAux (f + 1) l = reduceOAux f m := by
          simp only [reduceOAux, hcol]
        have h2 : reduceO l = reduceOAux (m.length + 1) m := by
          show reduceOAux l.length l = _
          rw [hlen]
          simp only [reduceOAux, hcol]
        rw [h1, h2]
        rw [ih f (Nat.lt_succ_self f) m (by omega)]
        rw [ih (m.length + 1) (by omega) m (Nat.le_succ _)]

theorem collapseO_reduceO (l m : List (List Char))
    (hcol : collapseO l = some m) : reduceO l = reduceO m := by
  have hlen := collapseO_length l m hcol
  show reduceOAux l.length l = _
  rw [hlen]
  simp only [reduceOAux, hcol]
  exact reduceOAux_ge (m.length + 1) m (Nat.le_succ _)

theorem dupStep_diamond_aux (A1 A2 : List (List Char)) (x1 x2 : List Char)
    (B1 B2 : List (List Char)) (hle : A1.length ≤ A2.length)
    (heq : A1 ++ x1 :: "..".toList :: x1 :: B1 =
      A2 ++ x2 :: "..".toList :: x2 :: B2) :
    A1 ++ x1 :: B1 = A2 ++ x2 :: B2 ∨
    ∃ m, dupStep (A1 ++ x1 :: B1) m ∧ dupStep (A2 ++ x2 :: B2) m := by
  have hpre1 : A1 <+: A2 := by
    have p1 : A1 <+: (A1 ++ x1 :: "..".toList :: x1 :: B1) := ⟨_, rfl⟩
    have p2 : A2 <+: (A1 ++ x1 :: "..".toList :: x1 :: B1) := by
      rw [heq]; exact ⟨_, rfl⟩
    exact List.prefix_of_prefix_length_le p1 p2 hle
  obtain ⟨C, rfl⟩ := hpre1
  have heq2 : x1 :: "..".toList :: x1 :: B1 =
      C ++ x2 :: "..".toList :: x2 :: B2 := by
    rw [List.append_assoc] at heq
    exact List.append_cancel_left heq
  rcases C with _ | ⟨c0, C1⟩
  · simp only [List.nil_append, List.cons.injEq] at heq2
    obtain ⟨rfl, -, -, rfl⟩ := heq2
    left
    simp
  · rcases C1 with _ | ⟨c1, C2⟩
    · simp only [List.cons_append, List.nil_append, List.cons.injEq] at heq2
      obtain ⟨rfl, rfl, h3, rfl⟩ := heq2
      left
      simp [← h3]
    · rcases C2 with _ | ⟨c2, C3⟩
      · simp only [List.cons_append, List.nil_append, List.cons.injEq]
          at heq2
        obtain ⟨rfl, rfl, rfl, rfl⟩ := heq2
        left
        simp
      · simp only [List.cons_append, List.cons.injEq] at heq2
        obtain ⟨rfl, rfl, rfl, rfl⟩ := heq2
        right
        refine ⟨(A1 ++ x1 :: C3) ++ x2 :: B2, ⟨A1 ++ x1 :: C3, x2, B2, ?_, rfl⟩,
          ⟨A1, x1, C3 ++ x2 :: B2, ?_, ?_⟩⟩
        · simp
        · simp
        · simp

theorem dupStep_diamond (l l1 l2 : List (List Char))
    (h1 : dupStep l l1) (h2 : dupStep l l2) :
    l1 = l2 ∨ ∃ m, dupStep l1 m ∧ dupStep l2 m := by
  obtain ⟨A1, x1, B1, hd1, rfl⟩ := h1
  obtain ⟨A2, x2, B2, hd2, rfl⟩ := h2
  have heq := hd1.symm.trans hd2
  rcases Nat.le_total A1.length A2.length with hle | hle
  · exact dupStep_diamond_aux A1 A2 x1 x2 B1 B2 hle heq
  · rcases dupStep_diamond_aux A2 A1 x2 x1 B2 B1 hle heq.symm with
      h | ⟨m, hm1, hm2⟩
    · exact Or.inl h.symm
    · exact Or.inr ⟨m, hm2, hm1⟩

/-- Collapsing one inserted `x, .., x` triple anywhere does not change the
leftmost-first reduction's result (unique normal forms, by the diamond
property and termination). -/
theorem dupStep_reduceO (n : ℕ) :
    ∀ (l l' : List (List Char)), l.length ≤ n → dupStep l l' →
      reduceO l = reduceO l' := by
  induction n using Nat.strong_induction_on with
  | _ n ih =>
    intro l l' hln hstep
    obtain ⟨A, x, B, hA, hA'⟩ := hstep
    obtain ⟨m0, hcol0⟩ := dupStep_collapseO A x B
    rw [← hA] at hcol0
    have hs0 : dupStep l m0 := collapseO_dupStep l m0 hcol0
    have h0 : reduceO l = reduceO m0 := collapseO_reduceO l m0 hcol0
    have hstep' : dupStep l l' := ⟨A, x, B, hA, hA'⟩
    rcases dupStep_diamond l m0 l' hs0 hstep' with heq | ⟨m, hm1, hm2⟩
    · rw [h0, heq]
    · have hl1 := dupStep_length l m0 hs0
      have hl2 := dupStep_length l l' hstep'
      have e1 : reduceO m0 = reduceO m :=
        ih m0.length (by omega) m0 m (le_refl _) hm1
      have e2 : reduceO l' = reduceO m :=
        ih l'.length (by omega) l' m (le_refl _) hm2
      rw [h0, e1, ← e2]

/-- The pair of `parts.insert` calls of one firing boundary, written as the
duplication of the element before the insertion point. -/
theorem pt_insert_eq (P : List (List Char)) (i : ℕ) (h1 : 1 ≤ i)
    (h2 : i < P.length) :
    insAtL (i + 1) ((insAtL i ("..".toList) P).getD (i - 1) [])
        (insAtL i ("..".toList) P) =
      P.take (i - 1) ++ (P.getD (i - 1) []) :: "..".toList ::
        (P.getD (i - 1) []) :: P.drop i := by
  have hi : i ≤ P.length := Nat.le_of_lt h2
  rw [insAtL_eq_take_drop i ("..".toList) P hi]
  have hlt : i - 1 < (P.take i).length := by
    rw [List.length_take]
    omega
  have hgd : (P.take i ++ "..".toList :: P.drop i).getD (i - 1) [] =
      P.getD (i - 1) [] := by
    rw [List.getD_append _ _ _ _ hlt]
    simp only [List.getD_eq_getElem?_getD, List.getElem?_take]
    rw [if_pos (by omega)]
  rw [hgd]
  rw [insAtL_eq_take_drop (i + 1) _ _ (by simp [List.length_take]; omega)]
  have htake : (P.take i ++ "..".toList :: P.drop i).take (i + 1) =
      P.take i ++ ["..".toList] := by
    rw [List.take_append_eq_append_take, List.take_take]
    rw [List.length_take]
    rw [show min (i + 1) i = i from by omega,
      show min i P.length = i from by omega,
      show i + 1 - i = 1 from by omega]
    rfl
  have hdrop : (P.take i ++ "..".toList :: P.drop i).drop (i + 1) =
      P.drop i := by
    rw [List.drop_append_eq_append_drop, List.drop_eq_nil_of_le,
      List.length_take]
    · rw [show min i P.length = i from by omega,
        show i + 1 - i = 1 from by omega]
      rfl
    · rw [List.length_take]
      omega
  rw [htake, hdrop]
  have hts : P.take i = P.take (i - 1) ++ [P.getD (i - 1) []] := by
    rw [show i = (i - 1) + 1 from by omega, List.take_succ]
    congr 1
    rw [List.getElem?_eq_getElem (by omega), List.getD_eq_getElem _ _
      (by omega)]
    rfl
  rw [hts]
  simp

/-- Invariant of the `_apply_path_traversal` insertion loop: whatever the
boundary draws do, the accumulated component list keeps the same
`reduceO` normal form, never shrinks, and only ever contains original
components and `..` entries. -/
theorem pt_fold_invariant (g : ℕ → ℚ) (prob : ℚ) (n : ℕ)
    (orig : List (List Char)) :
    ∀ (is : List ℕ) (P : List (List Char)) (k : ℕ),
      (∀ i ∈ is, 1 ≤ i ∧ i + 1 < n) → n ≤ P.length →
      (∀ q ∈ P, q ∈ orig ∨ q = "..".toList) →
      reduceO ((is.foldl
        (fun (p : List (List Char) × ℕ) i =>
          if g p.2 < prob then
            let p1 := insAtL i ("..".toList) p.1
            (insAtL (i + 1) (p1.getD (i - 1) []) p1, p.2 + 1)
          else (p.1, p.2 + 1))
        (P, k)).1) = reduceO P ∧
      n ≤ ((is.foldl
        (fun (p : List (List Char) × ℕ) i =>
          if g p.2 < prob then
            let p1 := insAtL i ("..".toList) p.1
            (insAtL (i + 1) (p1.getD (i - 1) []) p1, p.2 + 1)
          else (p.1, p.2 + 1))
        (P, k)).1).length ∧
      (∀ q ∈ (is.foldl
        (fun (p : List (List Char) × ℕ) i =>
          if g p.2 < prob then
            let p1 := insAtL i ("..".toList) p.1
            (insAtL (i + 1) (p1.getD (i - 1) []) p1, p.2 + 1)
          else (p.1, p.2 + 1))
        (P, k)).1, q ∈ orig ∨ q = "..".toList) := by
  intro is
  induction is with
  | nil => intro P k _ hlen hmem; exact ⟨rfl, hlen, hmem⟩
  | cons i is' ih =>
    intro P k hbounds hlen hmem
    simp only [List.foldl_cons]
    by_cases hf : g k < prob
    · rw [show (if g (P, k).2 < prob then
          let p1 := insAtL i ("..".toList) (P, k).1
          (insAtL (i + 1) (p1.getD (i - 1) []) p1, (P, k).2 + 1)
        else ((P, k).1, (P, k).2 + 1)) =
          (insAtL (i + 1) ((insAtL i ("..".toList) P).getD (i - 1) [])
            (insAtL i ("..".toList) P), k + 1) from by
          rw [if_pos hf]]
      have hb := hbounds i (List.mem_cons_self i is')
      have hilt : i < P.length := by omega
      rw [pt_insert_eq P i hb.1 hilt]
      have hPsplit : P = P.take (i - 1) ++ (P.getD (i - 1) []) :: P.drop i := by
        conv_lhs => rw [← List.take_append_drop (i - 1) P]
        congr 1
        rw [List.drop_eq_getElem_cons (by omega : i - 1 < P.length)]
        rw [show i - 1 + 1 = i from by omega,
          List.getD_eq_getElem _ _ (by omega : i - 1 < P.length)]
      have hdup : dupStep
          (P.take (i - 1) ++ (P.getD (i - 1) []) :: "..".toList ::
            (P.getD (i - 1) []) :: P.drop i) P :=
        ⟨P.take (i - 1), P.getD (i - 1) [], P.drop i, rfl, hPsplit⟩
      have hred := dupStep_reduceO _ _ P (le_refl _) hdup
      have hlen2 := dupStep_length _ P hdup
      have hmem2 : ∀ q ∈ P.take (i - 1) ++ (P.getD (i - 1) []) ::
          "..".toList :: (P.getD (i - 1) []) :: P.drop i,
          q ∈ orig ∨ q = "..".toList := by
        intro q hq
        simp only [List.mem_append, List.mem_cons] at hq
        rcases hq with hq | hq | hq | hq | hq
        · exact hmem q (List.take_subset _ _ hq)
        · subst hq
          exact hmem _ (by
            rw [List.getD_eq_getElem _ _ (by omega : i - 1 < P.length)]
            exact List.getElem_mem _)
        · exact Or.inr hq
        · subst hq
          exact hmem _ (by
            rw [List.getD_eq_getElem _ _ (by omega : i - 1 < P.length)]
            exact List.getElem_mem _)
        · exact hmem q (List.drop_subset _ _ hq)
      obtain ⟨ha, hb2, hc⟩ := ih _ (k + 1)
        (fun j hj => hbounds j (List.mem_cons_of_mem i hj))
        (by omega) hmem2
      exact ⟨ha.trans hred, hb2, hc⟩
    · rw [show (if g (P, k).2 < prob then
          let p1 := insAtL i ("..".toList) (P, k).1
          (insAtL (i + 1) (p1.getD (i - 1) []) p1, (P, k).2 + 1)
        else ((P, k).1, (P, k).2 + 1)) = (P, k + 1) from by
          rw [if_neg hf]]
      exact ih P (k + 1)
        (fun j hj => hbounds j (List.mem_cons_of_mem i hj)) hlen hmem

theorem joinSp_ne_nil (toks : List (List Char)) (h0 : toks ≠ [])
    (h1 : ∀ t ∈ toks, t ≠ []) : joinSp toks ≠ [] := by
  cases toks with
  | nil => exact absurd rfl h0
  | cons t ts =>
    cases ts with
    | nil => exact h1 t (List.mem_cons_self t [])
    | cons u us =>
      show t ++ ' ' :: joinSp (u :: us) ≠ []
      simp

theorem joinSp_append_one (toks : List (List Char)) (x : List Char)
    (h : toks ≠ []) : joinSp (toks ++ [x]) = joinSp toks ++ ' ' :: x := by
  induction toks with
  | nil => exact absurd rfl h
  | cons t ts ih =>
    cases ts with
    | nil => rfl
    | cons u us =>
      show t ++ ' ' :: joinSp ((u :: us) ++ [x]) =
        (t ++ ' ' :: joinSp (u :: us)) ++ ' ' :: x
      rw [ih (by simp)]
      simp

theorem joinSp_push (toks : List (List Char)) (cur : List Char) (c : Char) :
    joinSp (toks ++ [cur ++ [c]]) = joinSp (toks ++ [cur]) ++ [c] := by
  induction toks with
  | nil => rfl
  | cons t ts ih =>
    cases ts with
    | nil => simp [joinSp]
    | cons u us =>
      show t ++ ' ' :: joinSp ((u :: us) ++ [cur ++ [c]]) =
        (t ++ ' ' :: joinSp ((u :: us) ++ [cur])) ++ [c]
      rw [ih]
      simp

theorem J_emit (toks : List (List Char)) (cur : List Char) (pend : Bool)
    (c : Char) (h1 : ∀ t ∈ toks, t ≠ []) (h2 : cur ≠ [] → pend = false)
    (h3 : cur = [] → toks ≠ [] → pend = true) :
    J toks (cur ++ [c]) = wsEmit pend (J toks cur) c := by
  by_cases hc : cur = []
  · subst hc
    by_cases ht : toks = []
    · subst ht
      simp [J, wsEmit, joinSp]
    · rw [h3 rfl ht]
      have hne := joinSp_ne_nil toks ht h1
      simp only [J, if_pos rfl, List.nil_append]
      rw [if_neg (by simp), wsEmit, if_pos ⟨rfl, hne⟩,
        joinSp_append_one toks [c] ht]
      simp
  · rw [h2 hc]
    simp only [J, if_neg hc, if_neg (by simp : ¬(cur ++ [c] = [])), wsEmit]
    rw [if_neg (by simp)]
    exact joinSp_push toks cur c

theorem tokCore_collapse :
    ∀ (rest : List Char) (inQ : Option Char) (cur : List Char)
      (toks : List (List Char)) (pend : Bool),
      (∀ t ∈ toks, t ≠ []) → (cur ≠ [] → pend = false) →
      (cur = [] → toks ≠ [] → pend = true) →
      joinSp (tokCore rest inQ cur toks) =
        collapseWS rest inQ pend (J toks cur) := by
  intro rest
  induction rest with
  | nil =>
    intro inQ cur toks pend h1 h2 h3
    by_cases hc : cur = []
    · subst hc
      show joinSp (if ([] : List Char) ≠ [] then toks ++ [[]] else toks) = _
      rw [if_neg (by simp)]
      simp [collapseWS, J]
    · show joinSp (if cur ≠ [] then toks ++ [cur] else toks) = _
      rw [if_pos hc]
      simp [collapseWS, J, hc]
  | cons c rest ih =>
    intro inQ cur toks pend h1 h2 h3
    by_cases hq : c = '"' ∨ c = '\''
    · show joinSp (tokCore (c :: rest) inQ cur toks) = _
      rw [show tokCore (c :: rest) inQ cur toks =
        tokCore rest (qnext inQ c) (cur ++ [c]) toks from by
          simp only [tokCore, if_pos hq]]
      rw [show collapseWS (c :: rest) inQ pend (J toks cur) =
        collapseWS rest (qnext inQ c) false (wsEmit pend (J toks cur) c)
        from by simp only [collapseWS, if_pos hq]]
      rw [← J_emit toks cur pend c h1 h2 h3]
      exact ih (qnext inQ c) (cur ++ [c]) toks false h1
        (fun _ => rfl) (fun habs => absurd habs (by simp))
    · by_cases hw : isspace c ∧ inQ = none
      · rw [show tokCore (c :: rest) inQ cur toks =
          (if cur ≠ [] then tokCore rest inQ [] (toks ++ [cur])
            else tokCore rest inQ [] toks) from by
            simp only [tokCore, if_neg hq, if_pos hw]]
        rw [show collapseWS (c :: rest) inQ pend (J toks cur) =
          collapseWS rest inQ true (J toks cur) from by
            simp only [collapseWS, if_neg hq, if_pos hw]]
        by_cases hc : cur = []
        · rw [if_neg (by simp [hc])]
          have := ih inQ [] toks true h1 (fun habs => absurd rfl habs)
            (fun _ _ => rfl)
          rw [show J toks cur = J toks [] from by rw [hc]]
          exact this
        · rw [if_pos hc]
          have hent : ∀ t ∈ toks ++ [cur], t ≠ [] := by
            intro t ht
            rcases List.mem_append.mp ht with h | h
            · exact h1 t h
            · rw [List.mem_singleton.mp h]; exact hc
          have := ih inQ [] (toks ++ [cur]) true hent
            (fun habs => absurd rfl habs) (fun _ _ => rfl)
          rw [show J toks cur = J (toks ++ [cur]) [] from by
            simp [J, hc]]
          exact this
      · rw [show tokCore (c :: rest) inQ cur toks =
          tokCore rest inQ (cur ++ [c]) toks from by
            simp only [tokCore, if_neg hq, if_neg hw]]
        rw [show collapseWS (c :: rest) inQ pend (J toks cur) =
          collapseWS rest inQ false (wsEmit pend (J toks cur) c) from by
            simp only [collapseWS, if_neg hq, if_neg hw]]
        rw [← J_emit toks cur pend c h1 h2 h3]
        exact ih inQ (cur ++ [c]) toks false h1 (fun _ => rfl)
          (fun habs => absurd habs (by simp))

theorem insSorted_perm (n : ℕ) (l : List ℕ) : insSorted n l ~ n :: l := by
  induction l with
  | nil => rfl
  | cons m rest ih =>
    simp only [insSorted]
    split
    · rfl
    · exact (ih.cons m).trans (List.Perm.swap n m rest)

theorem sortNat_perm (l : List ℕ) : sortNat l ~ l := by
  induction l with
  | nil => rfl
  | cons n rest ih => exact (insSorted_perm n (sortNat rest)).trans (ih.cons n)

theorem getD_set_ne (l : List Token) (i j : ℕ) (v d : Token) (h : i ≠ j) :
    (l.set i v).getD j d = l.getD j d := by
  simp [List.getD_eq_getElem?_getD, List.getElem?_set_ne h]

theorem set_append_getD_perm (l : List Token) (i : ℕ) (v d : Token)
    (h : i < l.length) : l.set i v ++ [l.getD i d] ~ l ++ [v] := by
  induction l generalizing i with
  | nil => simp at h
  | cons a t ih =>
    cases i with
    | zero =>
      show v :: (t ++ [a]) ~ a :: (t ++ [v])
      refine ((List.perm_append_singleton a t).cons v).trans ?_
      refine (List.Perm.swap a v t).trans ?_
      exact ((List.perm_append_singleton v t).symm.cons a)
    | succ i =>
      show a :: (t.set i v ++ [t.getD i d]) ~ a :: (t ++ [v])
      exact (ih i (Nat.lt_of_succ_lt_succ h)).cons a

theorem setAll_key (d : Token) :
    ∀ (ixs : List ℕ) (l vs : List Token), ixs.Nodup →
      (∀ i ∈ ixs, i < l.length) → vs.length = ixs.length →
      setAll l ixs vs ++ ixs.map (fun i => l.getD i d) ~ l ++ vs := by
  intro ixs
  induction ixs with
  | nil =>
    intro l vs _ _ hlen
    rw [List.length_eq_zero.mp hlen]
    rfl
  | cons i is ih =>
    intro l vs hno hb hlen
    cases vs with
    | nil => simp at hlen
    | cons v vs' =>
      have hi : i < l.length := hb i (List.mem_cons_self i is)
      have hnotmem : i ∉ is := (List.nodup_cons.mp hno).1
      have hmap : is.map (fun j => (l.set i v).getD j d) =
          is.map (fun j => l.getD j d) := by
        refine List.map_congr_left ?_
        intro j hj
        exact getD_set_ne l i j v d (fun he => hnotmem (he ▸ hj))
      have ihx : setAll (l.set i v) is vs' ++ is.map (fun j => l.getD j d) ~
          l.set i v ++ vs' := by
        rw [← hmap]
        refine ih (l.set i v) vs' (List.nodup_cons.mp hno).2 ?_ ?_
        · intro j hj
          rw [List.length_set]
          exact hb j (List.mem_cons_of_mem i hj)
        · simpa using Nat.succ_injective (by simpa using hlen)
      show setAll (l.set i v) is vs' ++
        (l.getD i d :: is.map (fun j => l.getD j d)) ~ l ++ v :: vs'
      calc setAll (l.set i v) is vs' ++
            (l.getD i d :: is.map (fun j => l.getD j d))
          ~ setAll (l.set i v) is vs' ++
            (is.map (fun j => l.getD j d) ++ [l.getD i d]) :=
            List.Perm.append_left _ (List.perm_append_singleton _ _).symm
        _ = (setAll (l.set i v) is vs' ++ is.map (fun j => l.getD j d)) ++
            [l.getD i d] := (List.append_assoc _ _ _).symm
        _ ~ (l.set i v ++ vs') ++ [l.getD i d] :=
            List.Perm.append_right _ ihx
        _ = l.set i v ++ (vs' ++ [l.getD i d]) := List.append_assoc _ _ _
        _ ~ l.set i v ++ (l.getD i d :: vs') :=
            List.Perm.append_left _ (List.perm_append_singleton _ _)
        _ = (l.set i v ++ [l.getD i d]) ++ vs' := by simp
        _ ~ (l ++ [v]) ++ vs' :=
            List.Perm.append_right _ (set_append_getD_perm l i v d hi)
        _ = l ++ v :: vs' := by simp

theorem setAll_perm (d : Token) (ixs : List ℕ) (l vs : List Token)
    (hno : ixs.Nodup) (hb : ∀ i ∈ ixs, i < l.length)
    (hperm : vs ~ ixs.map (fun i => l.getD i d)) : setAll l ixs vs ~ l := by
  have hlen : vs.length = ixs.length := by
    simpa using hperm.length_eq
  have key := setAll_key d ixs l vs hno hb hlen
  have h2 : l ++ vs ~ l ++ ixs.map (fun i => l.getD i d) :=
    List.Perm.append_left l hperm
  exact (List.perm_append_right_iff _).mp (key.trans h2)

theorem setAll_getD_not_mem :
    ∀ (ixs : List ℕ) (vs : List Token) (l : List Token) (j : ℕ) (d : Token),
      j ∉ ixs → (setAll l ixs vs).getD j d = l.getD j d := by
  intro ixs
  induction ixs with
  | nil => intro vs l j d _; cases vs <;> rfl
  | cons i is ih =>
    intro vs l j d hj
    cases vs with
    | nil => rfl
    | cons v vs' =>
      show (setAll (l.set i v) is vs').getD j d = l.getD j d
      rw [ih vs' (l.set i v) j d (fun hm => hj (List.mem_cons_of_mem i hm))]
      exact getD_set_ne l i j v d
        (fun he => hj (he ▸ List.mem_cons_self i is))

theorem digits_ne_dot (s : List Char) (hs : s.all isdigit) :
    ∀ c ∈ s, c ≠ '.' := by
  intro c hc he
  have h := List.all_eq_true.mp hs c hc
  subst he
  exact absurd h (by decide)

theorem vt_step (g : ℕ → ℚ) (prob : ℚ) (k : ℕ) (tok : Token)
    (h : ¬g k > prob) :
    apply_value_transformation g tok prob k =
      (if tok.type = TokenType.argument ∧ matchesQuad tok.value then
        ⟨tok.type,
          natToChars (parseNat ((splitSep '.' tok.value).getD 0 []) * 2 ^ 24 +
            parseNat ((splitSep '.' tok.value).getD 1 []) * 2 ^ 16 +
            parseNat ((splitSep '.' tok.value).getD 2 []) * 2 ^ 8 +
            parseNat ((splitSep '.' tok.value).getD 3 []))⟩
      else tok, k + 1) := by
  simp only [apply_value_transformation, if_neg h]
  split_ifs <;> rfl

/-! ### Theorems -/

/-- C2, counterexample: on the three-component path `a\b\c` with gate and
boundary draws of one fifth (probability 0.4), `PathTraversal` produces
`a\..\a\b\c`; collapsing the triple `a, .., a` *to nothing*, as the claim
specifies, leaves `[b, c]`, not the original components `[a, b, c]`. -/
theorem c2_counterexample :
    reduceN (splitSep '\\'
        (apply_path_traversal (fun _ => mkRat 1 5)
          ⟨TokenType.file_path, "a\\b\\c".toList⟩ (mkRat 2 5) 0).1.value) =
      [['b'], ['c']] ∧
    splitSep '\\' "a\\b\\c".toList = [['a'], ['b'], ['c']] ∧
    ([['b'], ['c']] : List (List Char)) ≠ [['a'], ['b'], ['c']] := by
  decide

/-- C2, amended: for every `FilePath` token splitting into more than two
components on its path separator, none of which is `..`, and for every
draw sequence, splitting the `PathTraversal` output on that separator and
repeatedly collapsing every `component, .., component` triple to the
single component (rather than to nothing, as the claim words it) yields
exactly the original components.  The insertion loop's shifting
`parts.insert` indices can duplicate `..` entries (adjacent firing
boundaries give e.g. `a\..\..\..\a\b\c\d`), but every firing is the
duplication of one element with a `..` between the copies, and such
duplications never change the collapse normal form. -/
theorem c2_path_traversal_amended (g : ℕ → ℚ) (tok : Token) (prob : ℚ)
    (k : ℕ) (hty : tok.type = TokenType.file_path)
    (hlen : 2 < (splitSep (pathSepOf tok.value) tok.value).length)
    (hnd : "..".toList ∉ splitSep (pathSepOf tok.value) tok.value) :
    reduceO (splitSep (pathSepOf tok.value)
        (apply_path_traversal g tok prob k).1.value) =
      splitSep (pathSepOf tok.value) tok.value := by
  have hsep_or : '\\' ∈ tok.value ∨ '/' ∈ tok.value := by
    by_contra hno
    push_neg at hno
    have h1 : pathSepOf tok.value = '/' := by
      simp [pathSepOf, hno.1]
    rw [h1, splitSep_no_sep '/' tok.value
      (fun c hc he => hno.2 (he ▸ hc))] at hlen
    simp at hlen
  by_cases hg : g k > prob
  · have hv : (apply_path_traversal g tok prob k).1 = tok := by
      simp only [apply_path_traversal, if_pos hg]
    rw [hv]
    exact reduceO_of_no_dots _ hnd
  · have hsepdots : pathSepOf tok.value ∉ "..".toList := by
      unfold pathSepOf
      split <;> decide
    have hbounds : ∀ i ∈ List.range' 1
        ((splitSep (pathSepOf tok.value) tok.value).length - 2),
        1 ≤ i ∧ i + 1 < (splitSep (pathSepOf tok.value) tok.value).length := by
      intro i hi
      rw [List.mem_range'_1] at hi
      omega
    obtain ⟨hred, hlen2, hmem2⟩ := pt_fold_invariant g prob
      (splitSep (pathSepOf tok.value) tok.value).length
      (splitSep (pathSepOf tok.value) tok.value)
      (List.range' 1 ((splitSep (pathSepOf tok.value) tok.value).length - 2))
      (splitSep (pathSepOf tok.value) tok.value) (k + 1)
      hbounds (le_refl _) (fun q hq => Or.inl hq)
    have hv : (apply_path_traversal g tok prob k).1.value =
        joinSep (pathSepOf tok.value)
          (((List.range' 1
            ((splitSep (pathSepOf tok.value) tok.value).length - 2)).foldl
            (fun (p : List (List Char) × ℕ) i =>
              if g p.2 < prob then
                let p1 := insAtL i ("..".toList) p.1
                (insAtL (i + 1) (p1.getD (i - 1) []) p1, p.2 + 1)
              else (p.1, p.2 + 1))
            (splitSep (pathSepOf tok.value) tok.value, k + 1)).1) := by
      simp only [apply_path_traversal, if_neg hg, hty]
      rw [if_neg (by simp), if_pos hsep_or]
      have hsepsel : (if '\\' ∈ tok.value then '\\' else '/') =
          pathSepOf tok.value := rfl
      rw [hsepsel, if_pos hlen]
    rw [hv]
    rw [splitSep_joinSep (pathSepOf tok.value) _
      (by
        intro habs
        rw [habs] at hlen2
        simp only [List.length_nil] at hlen2
        omega)
      (by
        intro p hp hsp
        rcases hmem2 p hp with hq | hq
        · exact splitSep_entries (pathSepOf tok.value) tok.value p hq hsp
        · exact hsepdots (hq ▸ hsp))]
    exact hred.trans (reduceO_of_no_dots _ hnd)

/-- C2, witness: the amended theorem on the four-component token
`a\b\c\d` with every draw one fifth: the gate passes and both interior
boundaries fire, producing `a\..\..\..\a\b\c\d`, whose collapse
reduction returns `[a, b, c, d]`. -/
theorem c2_amended_witness :
    (⟨TokenType.file_path, "a\\b\\c\\d".toList⟩ : Token).type =
        TokenType.file_path ∧
    2 < (splitSep (pathSepOf "a\\b\\c\\d".toList)
        "a\\b\\c\\d".toList).length ∧
    "..".toList ∉ splitSep (pathSepOf "a\\b\\c\\d".toList)
        "a\\b\\c\\d".toList ∧
    reduceO (splitSep (pathSepOf "a\\b\\c\\d".toList)
        (apply_path_traversal (fun _ => mkRat 1 5)
          ⟨TokenType.file_path, "a\\b\\c\\d".toList⟩ (mkRat 2 5)
          0).1.value) =
      splitSep (pathSepOf "a\\b\\c\\d".toList) "a\\b\\c\\d".toList :=
  ⟨by decide, by decide, by decide,
    c2_path_traversal_amended (fun _ => mkRat 1 5)
      ⟨TokenType.file_path, "a\\b\\c\\d".toList⟩ (mkRat 2 5) 0
      (by decide) (by decide) (by decide)⟩

/-- C3, counterexample: the `argument` token `300.1.1.1` matches the
dotted-quad regex with an octet out of range, yet with a draw of 0 (gate
passed, probability 0.3) `ValueTransformation` rewrites it to
`5033230593 = (300<<24)+(1<<16)+(1<<8)+1`, so the value is *not* left
unchanged. -/
theorem c3_counterexample :
    (apply_value_transformation (fun _ => 0)
        ⟨TokenType.argument, "300.1.1.1".toList⟩ (mkRat 3 10) 0).1.value =
      "5033230593".toList ∧
    "5033230593".toList ≠ "300.1.1.1".toList := by
  decide

/-- C3, amended: for every `argument` token whose value is a dotted quad of
four one-to-three digit groups with at least one group's value above 255
(such as `300.1.1.1`), `ValueTransformation` propagates no error (the
embedding is total exactly because `int()` cannot fail on regex-matched
digits), but the value is left unchanged only when the gate draw exceeds
the probability; when the gate passes, it is replaced by the decimal of
`(o1<<24)+(o2<<16)+(o3<<8)+o4` even though an octet is out of range. -/
theorem c3_value_transformation_amended (s1 s2 s3 s4 : List Char)
    (prob : ℚ) (g : ℕ → ℚ) (k : ℕ)
    (h1a : s1 ≠ []) (h1b : s1.length ≤ 3) (h1c : s1.all isdigit)
    (h2a : s2 ≠ []) (h2b : s2.length ≤ 3) (h2c : s2.all isdigit)
    (h3a : s3 ≠ []) (h3b : s3.length ≤ 3) (h3c : s3.all isdigit)
    (h4a : s4 ≠ []) (h4b : s4.length ≤ 3) (h4c : s4.all isdigit)
    (hout : 255 < parseNat s1 ∨ 255 < parseNat s2 ∨ 255 < parseNat s3 ∨
      255 < parseNat s4) :
    apply_value_transformation g
        ⟨TokenType.argument, s1 ++ '.' :: (s2 ++ '.' :: (s3 ++ '.' :: s4))⟩
        prob k =
      (⟨TokenType.argument,
        if g k > prob then s1 ++ '.' :: (s2 ++ '.' :: (s3 ++ '.' :: s4))
        else natToChars (parseNat s1 * 2 ^ 24 + parseNat s2 * 2 ^ 16 +
          parseNat s3 * 2 ^ 8 + parseNat s4)⟩, k + 1) := by
  have hsplit : splitSep '.' (s1 ++ '.' :: (s2 ++ '.' :: (s3 ++ '.' :: s4)))
      = [s1, s2, s3, s4] := by
    rw [splitSep_append '.' s1 _ (digits_ne_dot s1 h1c),
      splitSep_append '.' s2 _ (digits_ne_dot s2 h2c),
      splitSep_append '.' s3 _ (digits_ne_dot s3 h3c),
      splitSep_no_sep '.' s4 (digits_ne_dot s4 h4c)]
  by_cases h : g k > prob
  · simp only [apply_value_transformation, if_pos h]
  · have hm : matchesQuad (s1 ++ '.' :: (s2 ++ '.' :: (s3 ++ '.' :: s4))) := by
      constructor
      · rw [hsplit]; rfl
      · rw [hsplit]
        intro p hp
        simp only [List.mem_cons, List.not_mem_nil, or_false] at hp
        rcases hp with rfl | rfl | rfl | rfl
        · exact ⟨⟨List.length_pos.mpr h1a, h1b⟩, h1c⟩
        · exact ⟨⟨List.length_pos.mpr h2a, h2b⟩, h2c⟩
        · exact ⟨⟨List.length_pos.mpr h3a, h3b⟩, h3c⟩
        · exact ⟨⟨List.length_pos.mpr h4a, h4b⟩, h4c⟩
    rw [vt_step g prob k _ h, if_pos ⟨rfl, hm⟩, if_neg h]
    rw [show (⟨TokenType.argument,
      s1 ++ '.' :: (s2 ++ '.' :: (s3 ++ '.' :: s4))⟩ : Token).value =
      s1 ++ '.' :: (s2 ++ '.' :: (s3 ++ '.' :: s4)) from rfl, hsplit]
    rfl

/-- C3, witness: the amended theorem at `300.1.1.1` with a zero draw
(gate passed at probability 0.3), whose value becomes `5033230593`. -/
theorem c3_amended_witness :
    apply_value_transformation (fun _ => 0)
        ⟨TokenType.argument,
          "300".toList ++ '.' :: ("1".toList ++ '.' ::
            ("1".toList ++ '.' :: "1".toList))⟩ (mkRat 3 10) 0 =
      (⟨TokenType.argument,
        if (fun _ => (0 : ℚ)) 0 > mkRat 3 10 then
          "300".toList ++ '.' :: ("1".toList ++ '.' ::
            ("1".toList ++ '.' :: "1".toList))
        else natToChars (parseNat "300".toList * 2 ^ 24 +
          parseNat "1".toList * 2 ^ 16 + parseNat "1".toList * 2 ^ 8 +
          parseNat "1".toList)⟩, 0 + 1) :=
  c3_value_transformation_amended "300".toList "1".toList "1".toList
    "1".toList (mkRat 3 10) (fun _ => 0) 0
    (by decide) (by decide) (by decide) (by decide) (by decide) (by decide)
    (by decide) (by decide) (by decide) (by decide) (by decide) (by decide)
    (Or.inl (by decide))

/-- C8, counterexample: loading `badDoc` reports an error, but the
substitution table has already been merged when the wrong-shaped
`windows_programs` value raises, so the tables are not all left at their
defaults. -/
theorem c8_counterexample :
    (load_config (some badDoc) defaultTables).2 = true ∧
    (load_config (some badDoc) defaultTables).1 ≠ defaultTables := by
  decide

/-- C8, amended: an unreadable file or a document the JSON parser rejects
raises before any merge, so the error is reported and every table keeps its
default; atomicity holds only for this case (a wrong-shaped value under a
later key keeps the earlier keys' merges, as the counterexample shows). -/
theorem c8_load_config_amended (t : Tables) : load_config none t = (t, true) :=
  rfl

/-- C9, counterexample: with exactly one configured option character `-`,
the token `/x` still passes the hardcoded `-`/`/` applicability test, the
filtered candidate list `['-']` is nonempty, and the token is rewritten to
`-x` — not a no-op. -/
theorem c9_counterexample :
    (apply_option_character_substitution
        { defaultTables with option_chars := ['-'] } oracle0 (fun _ => 0)
        ⟨TokenType.argument, "/x".toList⟩ (mkRat 2 5) 0).1.value =
      "-x".toList ∧
    "-x".toList ≠ "/x".toList := by
  decide

/-- C9, amended: with exactly one configured option character `c`,
`OptionCharacterSubstitution` is a no-op (token unchanged, one draw
consumed) on every token except an `argument` starting with `-` or `/`
whose first character differs from `c`. -/
theorem c9_single_option_char_amended (T : Tables) (O : Oracle) (g : ℕ → ℚ)
    (tok : Token) (prob : ℚ) (k : ℕ) (c : Char)
    (hT : T.option_chars = [c])
    (h : tok.type ≠ TokenType.argument ∨ tok.value.head? = some c ∨
      ¬(tok.value.head? = some '-' ∨ tok.value.head? = some '/')) :
    apply_option_character_substitution T O g tok prob k = (tok, k + 1) := by
  unfold apply_option_character_substitution
  by_cases hg : g k > prob
  · rw [if_pos hg]
  · rw [if_neg hg]
    by_cases happ : tok.type = TokenType.argument ∧
      (tok.value.head? = some '-' ∨ tok.value.head? = some '/')
    · rw [if_neg (not_not_intro happ)]
      obtain ⟨hty, hhd⟩ := happ
      rcases hv : tok.value with _ | ⟨cur, restv⟩
      · simp [hv]
      · have hcur : cur = c := by
          rcases h with h1 | h2 | h3
          · exact absurd hty h1
          · rw [hv] at h2; exact Option.some.inj h2
          · exact absurd hhd h3
        subst hcur
        simp [hv, hT]
    · rw [if_pos happ]

/-- C9, witness: the amended theorem applied to the token `-x` with the
single configured option character `-`. -/
theorem c9_amended_witness :
    apply_option_character_substitution
        { defaultTables with option_chars := ['-'] } oracle0 (fun _ => 0)
        ⟨TokenType.argument, "-x".toList⟩ (mkRat 2 5) 0 =
      (⟨TokenType.argument, "-x".toList⟩, 1) :=
  c9_single_option_char_amended _ oracle0 _ _ _ 0 '-' rfl (Or.inr (Or.inl rfl))

section GateLemmas

variable (T : Tables) (O : Oracle) (g : ℕ → ℚ)

theorem cs_gate (tok : Token) (prob : ℚ) (k : ℕ) (h : g k > prob) :
    apply_character_substitution T g tok prob k = (tok, k + 1) := by
  unfold apply_character_substitution; rw [if_pos h]

theorem rc_gate (tok : Token) (prob : ℚ) (k : ℕ) (h : g k > prob) :
    apply_random_case g tok prob k = (tok, k + 1) := by
  unfold apply_random_case; rw [if_pos h]

theorem ocs_gate (tok : Token) (prob : ℚ) (k : ℕ) (h : g k > prob) :
    apply_option_character_substitution T O g tok prob k = (tok, k + 1) := by
  unfold apply_option_character_substitution; rw [if_pos h]

theorem ci_gate (tok : Token) (prob : ℚ) (k : ℕ) (h : g k > prob) :
    apply_character_insertion T O g tok prob k = (tok, k + 1) := by
  unfold apply_character_insertion; rw [if_pos h]

theorem qi_gate (tok : Token) (prob : ℚ) (k : ℕ) (h : g k > prob) :
    apply_quote_insertion g tok prob k = (tok, k + 1) := by
  unfold apply_quote_insertion; rw [if_pos h]

theorem pt_gate (tok : Token) (prob : ℚ) (k : ℕ) (h : g k > prob) :
    apply_path_traversal g tok prob k = (tok, k + 1) := by
  unfold apply_path_traversal; rw [if_pos h]

theorem vt_gate (tok : Token) (prob : ℚ) (k : ℕ) (h : g k > prob) :
    apply_value_transformation g tok prob k = (tok, k + 1) := by
  unfold apply_value_transformation; rw [if_pos h]

theorem osi_gate (tok : Token) (prob : ℚ) (k : ℕ) (h : g k > prob) :
    apply_option_separator_insertion g tok prob k = (tok, k + 1) := by
  unfold apply_option_separator_insertion; rw [if_pos h]

theorem or_gate (tokens : List Token) (prob : ℚ) (k : ℕ) (h : g k > prob) :
    apply_option_reordering O g tokens prob k = (tokens, k + 1) := by
  unfold apply_option_reordering; rw [if_pos h]

theorem osd_gate (tokens : List Token) (prob : ℚ) (k : ℕ) (h : g k > prob) :
    handle_option_separator_deletion g tokens prob k = (tokens, k + 1) := by
  unfold handle_option_separator_deletion; rw [if_pos h]

theorem dispatch_noop (probs : List Char → ℚ) (name : List Char)
    (tok : Token) (k : ℕ) (hmem : name ∈ allTechniqueNames)
    (hg : g k > probs name) :
    dispatchTech T O g probs name tok k = (tok, k + 1) := by
  simp only [allTechniqueNames, List.map_cons, List.map_nil, List.mem_cons,
    List.not_mem_nil, or_false] at hmem
  unfold dispatchTech
  rcases hmem with rfl | rfl | rfl | rfl | rfl | rfl | rfl | rfl | rfl | rfl
  · rw [if_pos rfl]; exact cs_gate T g tok _ k hg
  · rw [if_neg (by decide), if_pos rfl]; exact rc_gate g tok _ k hg
  · rw [if_neg (by decide), if_neg (by decide), if_pos rfl]
    exact ocs_gate T O g tok _ k hg
  · rw [if_neg (by decide), if_neg (by decide), if_neg (by decide),
      if_pos rfl]
    exact ci_gate T O g tok _ k hg
  · rw [if_neg (by decide), if_neg (by decide), if_neg (by decide),
      if_neg (by decide), if_pos rfl]
    exact qi_gate g tok _ k hg
  · rw [if_neg (by decide), if_neg (by decide), if_neg (by decide),
      if_neg (by decide), if_neg (by decide), if_pos rfl]
    exact pt_gate g tok _ k hg
  · rw [if_neg (by decide), if_neg (by decide), if_neg (by decide),
      if_neg (by decide), if_neg (by decide), if_neg (by decide),
      if_pos rfl]
    exact vt_gate g tok _ k hg
  · rw [if_neg (by decide), if_neg (by decide), if_neg (by decide),
      if_neg (by decide), if_neg (by decide), if_neg (by decide),
      if_neg (by decide), if_pos rfl]
  · rw [if_neg (by decide), if_neg (by decide), if_neg (by decide),
      if_neg (by decide), if_neg (by decide), if_neg (by decide),
      if_neg (by decide), if_neg (by decide), if_pos rfl]
    exact osi_gate g tok _ k hg
  · rw [if_neg (by decide), if_neg (by decide), if_neg (by decide),
      if_neg (by decide), if_neg (by decide), if_neg (by decide),
      if_neg (by decide), if_neg (by decide), if_neg (by decide),
      if_pos rfl]
    rfl

theorem inner_noop (probs : List Char → ℚ)
    (hg : ∀ (name : List Char) (k : ℕ), name ∈ allTechniqueNames →
      g k > probs name) :
    ∀ (ts : List (List Char)), (∀ name ∈ ts, name ∈ allTechniqueNames) →
      ∀ (tok : Token) (k : ℕ),
        innerLoop T O g probs ts tok k = (tok, k + ts.length) := by
  intro ts
  induction ts with
  | nil => intro _ tok k; simp [innerLoop]
  | cons nm rest ih =>
    intro hmem tok k
    have h1 : innerLoop T O g probs (nm :: rest) tok k =
        innerLoop T O g probs rest
          (dispatchTech T O g probs nm tok k).1
          (dispatchTech T O g probs nm tok k).2 := rfl
    rw [h1, dispatch_noop T O g probs nm tok k
      (hmem nm (List.mem_cons_self nm rest))
      (hg nm k (hmem nm (List.mem_cons_self nm rest)))]
    rw [ih (fun n hn => hmem n (List.mem_cons_of_mem nm hn)) tok (k + 1)]
    refine congrArg (fun n => (tok, n)) ?_
    simp only [List.length_cons]
    omega

theorem outer_noop (probs : List Char → ℚ)
    (hg : ∀ (name : List Char) (k : ℕ), name ∈ allTechniqueNames →
      g k > probs name)
    (ts : List (List Char)) (hmem : ∀ name ∈ ts, name ∈ allTechniqueNames) :
    ∀ (toks : List Token) (k : ℕ),
      outerLoop T O g probs ts toks k = (toks, k + ts.length * toks.length) := by
  intro toks
  induction toks with
  | nil => intro k; simp [outerLoop]
  | cons t rest ih =>
    intro k
    simp only [outerLoop]
    rw [inner_noop T O g probs hg ts hmem t k, ih (k + ts.length)]
    refine congrArg (fun n => (t :: rest, n)) ?_
    simp only [List.length_cons]
    ring

end GateLemmas

/-- Proof helper: the concatenation produced by the reassembly loop of
`obfuscate_command` (each value followed by one space). -/
def valcat : List (List Char) → List Char
  | [] => []
  | v :: vs => v ++ ' ' :: valcat vs

theorem foldl_values_eq_valcat :
    ∀ (toks : List Token) (acc : List Char),
      toks.foldl (fun a t => a ++ t.value ++ [' ']) acc =
        acc ++ valcat (toks.map Token.value) := by
  intro toks
  induction toks with
  | nil => intro acc; simp [valcat]
  | cons t rest ih =>
    intro acc
    show List.foldl _ (acc ++ t.value ++ [' ']) rest = _
    rw [ih (acc ++ t.value ++ [' '])]
    simp [valcat]

theorem valcat_eq_joinSp (vals : List (List Char)) (h : vals ≠ []) :
    valcat vals = joinSp vals ++ [' '] := by
  induction vals with
  | nil => exact absurd rfl h
  | cons v vs ih =>
    cases vs with
    | nil => simp [valcat, joinSp]
    | cons w ws =>
      rw [show valcat (v :: w :: ws) = v ++ ' ' :: valcat (w :: ws) from rfl,
        ih (by simp),
        show joinSp (v :: w :: ws) = v ++ ' ' :: joinSp (w :: ws) from rfl]
      simp

theorem pyStrip_append_space (x : List Char) :
    pyStrip (x ++ [' ']) = pyStrip x := by
  unfold pyStrip rstrip
  rw [List.reverse_append]
  show ((' ' :: x.reverse).dropWhile isspace).reverse.dropWhile isspace = _
  rw [List.dropWhile_cons_of_pos (by decide)]

theorem strip_fold_eq_strip_join (toks : List Token) :
    pyStrip (toks.foldl (fun a t => a ++ t.value ++ [' ']) []) =
      pyStrip (joinSp (toks.map Token.value)) := by
  cases toks with
  | nil => rfl
  | cons t rest =>
    rw [foldl_values_eq_valcat, List.nil_append,
      valcat_eq_joinSp _ (by simp), pyStrip_append_space]

/-- C1, amended: with every technique's probability forced to 0 and every
`random.random()` draw *strictly positive* (rather than anywhere in
`[0,1)`), every gate fails and `obfuscate` returns exactly the original
token values joined with single spaces and passed through `str.strip` —
which coincides with the plain join except when an unterminated quote puts
trailing whitespace inside the final token. -/
theorem c1_zero_prob_identity_amended (T : Tables) (O : Oracle) (g : ℕ → ℚ)
    (cmd : List Char) (hpos : ∀ n, 0 < g n) :
    (obfuscate_command T O g cmd none (fun _ => some 0)).1 =
      pyStrip (joinSp ((tokenize_command cmd).map Token.value)) := by
  have hp : ∀ (name : List Char) (k : ℕ), name ∈ allTechniqueNames →
      g k > ((fun _ => (some (0:ℚ)) : List Char → Option ℚ) name).getD
        (defaultProbs name) := fun _ k _ => hpos k
  simp only [obfuscate_command]
  rw [if_pos (show "OptionReordering".toList ∈ allTechniqueNames from
    by decide)]
  rw [or_gate O g (tokenize_command cmd) _ 0 (hp _ 0 (by decide))]
  dsimp only
  rw [show allTechniqueNames.erase ("OptionReordering".toList) =
    ["CharacterSubstitution".toList, "RandomCase".toList,
     "OptionCharacterSubstitution".toList, "CharacterInsertion".toList,
     "QuoteInsertion".toList, "PathTraversal".toList,
     "ValueTransformation".toList, "OptionSeparatorInsertion".toList,
     "OptionSeparatorDeletion".toList] from by decide]
  rw [if_pos (show "OptionSeparatorDeletion".toList ∈
    ["CharacterSubstitution".toList, "RandomCase".toList,
     "OptionCharacterSubstitution".toList, "CharacterInsertion".toList,
     "QuoteInsertion".toList, "PathTraversal".toList,
     "ValueTransformation".toList, "OptionSeparatorInsertion".toList,
     "OptionSeparatorDeletion".toList] from by decide)]
  rw [osd_gate g (tokenize_command cmd) _ (0 + 1) (hp _ (0 + 1) (by decide))]
  dsimp only
  rw [show (["CharacterSubstitution".toList, "RandomCase".toList,
     "OptionCharacterSubstitution".toList, "CharacterInsertion".toList,
     "QuoteInsertion".toList, "PathTraversal".toList,
     "ValueTransformation".toList, "OptionSeparatorInsertion".toList,
     "OptionSeparatorDeletion".toList]).erase
       ("OptionSeparatorDeletion".toList) =
    ["CharacterSubstitution".toList, "RandomCase".toList,
     "OptionCharacterSubstitution".toList, "CharacterInsertion".toList,
     "QuoteInsertion".toList, "PathTraversal".toList,
     "ValueTransformation".toList, "OptionSeparatorInsertion".toList]
    from by decide]
  rw [outer_noop T O g (fun n => ((some (0:ℚ)).getD (defaultProbs n))) hp
    ["CharacterSubstitution".toList, "RandomCase".toList,
     "OptionCharacterSubstitution".toList, "CharacterInsertion".toList,
     "QuoteInsertion".toList, "PathTraversal".toList,
     "ValueTransformation".toList, "OptionSeparatorInsertion".toList]
    (by decide) (tokenize_command cmd) (0 + 1 + 1)]
  dsimp only
  exact strip_fold_eq_strip_join (tokenize_command cmd)

/-- C1 (amended), witness: the amended identity at the command
`ping -n 1 192.168.1.1` with every draw equal to one half. -/
theorem c1_amended_witness :
    (obfuscate_command defaultTables oracle0 (fun _ => mkRat 1 2)
        "ping -n 1 192.168.1.1".toList none (fun _ => some 0)).1 =
      pyStrip (joinSp
        ((tokenize_command "ping -n 1 192.168.1.1".toList).map
          Token.value)) :=
  c1_zero_prob_identity_amended defaultTables oracle0 (fun _ => mkRat 1 2)
    "ping -n 1 192.168.1.1".toList
    (fun _ => (by decide : (0:ℚ) < mkRat 1 2))

theorem dispatch_vt (T : Tables) (O : Oracle) (g : ℕ → ℚ)
    (probs : List Char → ℚ) (tok : Token) (k : ℕ) :
    dispatchTech T O g probs ("ValueTransformation".toList) tok k =
      apply_value_transformation g tok
        (probs ("ValueTransformation".toList)) k := by
  unfold dispatchTech
  rw [if_neg (by decide), if_neg (by decide), if_neg (by decide),
    if_neg (by decide), if_neg (by decide), if_neg (by decide), if_pos rfl]

theorem obfuscate_no_global (T : Tables) (O : Oracle) (g : ℕ → ℚ)
    (cmd : List Char) (l : List (List Char))
    (probabilities : List Char → Option ℚ)
    (h1 : l ≠ []) (h2 : "OptionReordering".toList ∉ l)
    (h3 : "OptionSeparatorDeletion".toList ∉ l) :
    obfuscate_command T O g cmd (some l) probabilities =
      (pyStrip ((outerLoop T O g
          (fun n => (probabilities n).getD (defaultProbs n)) l
          (tokenize_command cmd) 0).1.foldl
          (fun acc t => acc ++ t.value ++ [' ']) []), some l) := by
  simp only [obfuscate_command, if_neg h1, if_neg h2, if_neg h3]

/-- C4: for every input, joining the texts of the tokens produced by the
tokenizer with single spaces equals the input with every run of whitespace
outside quote state collapsed to a single space and leading/trailing
unquoted whitespace removed (tokens carry none of the separating
whitespace: it is all replaced by the single joining spaces). -/
theorem c4_tokenizer_join (s : List Char) :
    joinSp ((tokenize_command s).map Token.value) =
      collapseWS s none false [] := by
  have h1 : ∀ p : ℕ × List Char, (classifyTok p.1 p.2).value = p.2 := by
    intro p
    unfold classifyTok
    split_ifs <;> rfl
  have h2 : (tokenize_command s).map Token.value = tokCore s none [] [] := by
    unfold tokenize_command
    rw [List.map_map]
    rw [show (Token.value ∘ fun p : ℕ × List Char => classifyTok p.1 p.2) =
      fun p : ℕ × List Char => (classifyTok p.1 p.2).value from rfl]
    rw [List.map_congr_left (fun p _ => h1 p)]
    exact List.enum_map_snd _
  rw [h2]
  have h3 := tokCore_collapse s none [] [] false (by simp)
    (fun h => absurd rfl h) (fun _ h => absurd rfl h)
  simpa [J, joinSp] using h3

/-- C5: first, for every dotted quad written from four digit groups of one
to three digits whose values are octets at most 255, `ValueTransformation`
at probability 1 (whose gate always passes, since every draw is below 1)
replaces the value with the decimal string of
`(o1<<24)+(o2<<16)+(o3<<8)+o4`; second, end to end, obfuscating
`ping -n 1 192.168.1.1` with techniques `[ValueTransformation]` at
probability 1.0 yields `ping -n 1 3232235777` for every draw sequence in
`[0,1)`. -/
theorem c5_value_transformation :
    (∀ (s1 s2 s3 s4 : List Char) (g : ℕ → ℚ) (k : ℕ),
      (∀ n, 0 ≤ g n ∧ g n < 1) →
      s1 ≠ [] → s1.length ≤ 3 → s1.all isdigit → parseNat s1 ≤ 255 →
      s2 ≠ [] → s2.length ≤ 3 → s2.all isdigit → parseNat s2 ≤ 255 →
      s3 ≠ [] → s3.length ≤ 3 → s3.all isdigit → parseNat s3 ≤ 255 →
      s4 ≠ [] → s4.length ≤ 3 → s4.all isdigit → parseNat s4 ≤ 255 →
      apply_value_transformation g
          ⟨TokenType.argument,
            s1 ++ '.' :: (s2 ++ '.' :: (s3 ++ '.' :: s4))⟩ 1 k =
        (⟨TokenType.argument,
          natToChars (parseNat s1 * 2 ^ 24 + parseNat s2 * 2 ^ 16 +
            parseNat s3 * 2 ^ 8 + parseNat s4)⟩, k + 1)) ∧
    (∀ (O : Oracle) (g : ℕ → ℚ), (∀ n, 0 ≤ g n ∧ g n < 1) →
      (obfuscate_command defaultTables O g
          "ping -n 1 192.168.1.1".toList
          (some ["ValueTransformation".toList])
          (fun n => if n = "ValueTransformation".toList then some 1
            else none)).1 =
        "ping -n 1 3232235777".toList) := by
  constructor
  · intro s1 s2 s3 s4 g k hg h1a h1b h1c h1d h2a h2b h2c h2d
      h3a h3b h3c h3d h4a h4b h4c h4d
    have hne : ¬g k > 1 := fun hgt => absurd (hgt.trans (hg k).2)
      (lt_irrefl 1)
    have hsplit : splitSep '.' (s1 ++ '.' :: (s2 ++ '.' :: (s3 ++ '.' :: s4)))
        = [s1, s2, s3, s4] := by
      rw [splitSep_append '.' s1 _ (digits_ne_dot s1 h1c),
        splitSep_append '.' s2 _ (digits_ne_dot s2 h2c),
        splitSep_append '.' s3 _ (digits_ne_dot s3 h3c),
        splitSep_no_sep '.' s4 (digits_ne_dot s4 h4c)]
    have hm : matchesQuad (s1 ++ '.' :: (s2 ++ '.' :: (s3 ++ '.' :: s4))) := by
      constructor
      · rw [hsplit]; rfl
      · rw [hsplit]
        intro p hp
        simp only [List.mem_cons, List.not_mem_nil, or_false] at hp
        rcases hp with rfl | rfl | rfl | rfl
        · exact ⟨⟨List.length_pos.mpr h1a, h1b⟩, h1c⟩
        · exact ⟨⟨List.length_pos.mpr h2a, h2b⟩, h2c⟩
        · exact ⟨⟨List.length_pos.mpr h3a, h3b⟩, h3c⟩
        · exact ⟨⟨List.length_pos.mpr h4a, h4b⟩, h4c⟩
    rw [vt_step g 1 k _ hne, if_pos ⟨rfl, hm⟩]
    rw [show (⟨TokenType.argument,
      s1 ++ '.' :: (s2 ++ '.' :: (s3 ++ '.' :: s4))⟩ : Token).value =
      s1 ++ '.' :: (s2 ++ '.' :: (s3 ++ '.' :: s4)) from rfl, hsplit]
    rfl
  · intro O g hg
    have hne : ∀ k, ¬g k > 1 := fun k hgt => absurd (hgt.trans (hg k).2)
      (lt_irrefl 1)
    rw [obfuscate_no_global defaultTables O g _ _ _ (by decide) (by decide)
      (by decide)]
    have hinner : ∀ (tok : Token) (k : ℕ),
        innerLoop defaultTables O g
          (fun n => ((if n = "ValueTransformation".toList then some 1
            else none : Option ℚ)).getD (defaultProbs n))
          ["ValueTransformation".toList] tok k =
          (if tok.type = TokenType.argument ∧ matchesQuad tok.value then
            ⟨tok.type,
              natToChars
                (parseNat ((splitSep '.' tok.value).getD 0 []) * 2 ^ 24 +
                parseNat ((splitSep '.' tok.value).getD 1 []) * 2 ^ 16 +
                parseNat ((splitSep '.' tok.value).getD 2 []) * 2 ^ 8 +
                parseNat ((splitSep '.' tok.value).getD 3 []))⟩
          else tok, k + 1) := by
      intro tok k
      have h1 : innerLoop defaultTables O g
          (fun n => ((if n = "ValueTransformation".toList then some 1
            else none : Option ℚ)).getD (defaultProbs n))
          ["ValueTransformation".toList] tok k =
          dispatchTech defaultTables O g
            (fun n => ((if n = "ValueTransformation".toList then some 1
              else none : Option ℚ)).getD (defaultProbs n))
            ("ValueTransformation".toList) tok k := rfl
      rw [h1, dispatch_vt]
      exact vt_step g _ k tok (hne k)
    rw [show tokenize_command "ping -n 1 192.168.1.1".toList =
      [⟨TokenType.command, "ping".toList⟩,
       ⟨TokenType.argument, "-n".toList⟩,
       ⟨TokenType.argument, "1".toList⟩,
       ⟨TokenType.argument, "192.168.1.1".toList⟩] from by decide]
    simp only [outerLoop, hinner]
    rw [if_neg (by decide), if_neg (by decide), if_neg (by decide),
      if_pos (by decide)]
    decide

/-- C5, witness: the general statement instantiated at `192.168.1.1` with
the all-zero draw stream, and the end-to-end statement at the same
stream. -/
theorem c5_witness :
    apply_value_transformation (fun _ => 0)
        ⟨TokenType.argument,
          "192".toList ++ '.' :: ("168".toList ++ '.' ::
            ("1".toList ++ '.' :: "1".toList))⟩ 1 0 =
      (⟨TokenType.argument,
        natToChars (parseNat "192".toList * 2 ^ 24 +
          parseNat "168".toList * 2 ^ 16 + parseNat "1".toList * 2 ^ 8 +
          parseNat "1".toList)⟩, 0 + 1) ∧
    (obfuscate_command defaultTables oracle0 (fun _ => 0)
        "ping -n 1 192.168.1.1".toList
        (some ["ValueTransformation".toList])
        (fun n => if n = "ValueTransformation".toList then some 1
          else none)).1 =
      "ping -n 1 3232235777".toList :=
  ⟨c5_value_transformation.1 "192".toList "168".toList "1".toList "1".toList
    (fun _ => 0) 0 (fun _ => ⟨le_refl 0, by norm_num⟩)
    (by decide) (by decide) (by decide) (by decide)
    (by decide) (by decide) (by decide) (by decide)
    (by decide) (by decide) (by decide) (by decide)
    (by decide) (by decide) (by decide) (by decide),
   c5_value_transformation.2 oracle0 (fun _ => 0)
    (fun _ => ⟨le_refl 0, by norm_num⟩)⟩

/-- C6: for every token sequence and draw stream, and for every behavior of
`random.sample` (a duplicate-free selection from its population) and
`random.shuffle` (a permutation of its input), `OptionReordering` returns a
sequence of the same length that is a permutation of the input in which
every non-option token keeps its index and value; consequently the
multiset of option-token values is preserved, and tokens move as whole
kind/value pairs. -/
theorem c6_option_reordering (O : Oracle) (g : ℕ → ℚ) (tokens : List Token)
    (prob : ℚ) (k : ℕ)
    (hshuf : ∀ l, O.shuffle l ~ l)
    (hsam : ∀ pop n, pop.Nodup →
      (O.sample pop n).Nodup ∧ ∀ i ∈ O.sample pop n, i ∈ pop) :
    (apply_option_reordering O g tokens prob k).1.length = tokens.length ∧
    (apply_option_reordering O g tokens prob k).1 ~ tokens ∧
    (∀ j, isOptTok (tokens.getD j default) = false →
      (apply_option_reordering O g tokens prob k).1.getD j default =
        tokens.getD j default) ∧
    ((apply_option_reordering O g tokens prob k).1.filter isOptTok).map
        Token.value ~ (tokens.filter isOptTok).map Token.value := by
  by_cases hg : g k > prob
  · rw [show apply_option_reordering O g tokens prob k = (tokens, k + 1) from
      by simp only [apply_option_reordering, if_pos hg]]
    exact ⟨rfl, List.Perm.refl _, fun j _ => rfl, List.Perm.refl _⟩
  · by_cases hfew : ((List.range tokens.length).filter
      (fun i => isOptTok (tokens.getD i default))).length < 2
    · rw [show apply_option_reordering O g tokens prob k = (tokens, k + 1) from
        by simp only [apply_option_reordering, if_neg hg, if_pos hfew]]
      exact ⟨rfl, List.Perm.refl _, fun j _ => rfl, List.Perm.refl _⟩
    · have hrw : apply_option_reordering O g tokens prob k =
        (setAll tokens
          (sortNat (O.sample
            ((List.range tokens.length).filter
              (fun i => isOptTok (tokens.getD i default)))
            (O.randint 1 ((List.range tokens.length).filter
              (fun i => isOptTok (tokens.getD i default))).length)))
          (O.shuffle ((sortNat (O.sample
            ((List.range tokens.length).filter
              (fun i => isOptTok (tokens.getD i default)))
            (O.randint 1 ((List.range tokens.length).filter
              (fun i => isOptTok (tokens.getD i default))).length))).map
            (fun i => tokens.getD i default))), k + 1) := by
        simp only [apply_option_reordering, if_neg hg, if_neg hfew]
      rw [hrw]
      set optionIndices := (List.range tokens.length).filter
        (fun i => isOptTok (tokens.getD i default)) with hoidef
      set s := O.sample optionIndices (O.randint 1 optionIndices.length)
        with hsdef
      set ixs := sortNat s with hixsdef
      have hoNodup : optionIndices.Nodup :=
        (List.nodup_range tokens.length).filter _
      obtain ⟨hsN, hsMem⟩ :=
        hsam optionIndices (O.randint 1 optionIndices.length) hoNodup
      have hixsN : ixs.Nodup := ((sortNat_perm s).nodup_iff).mpr hsN
      have hb : ∀ i ∈ ixs, i < tokens.length := by
        intro i hi
        have h1 : i ∈ s := ((sortNat_perm s).mem_iff).mp hi
        have h2 : i ∈ optionIndices := hsMem i h1
        have h3 : i ∈ List.range tokens.length := (List.mem_filter.mp h2).1
        exact List.mem_range.mp h3
      have hperm : O.shuffle (ixs.map (fun i => tokens.getD i default)) ~
          ixs.map (fun i => tokens.getD i default) := hshuf _
      have hres : setAll tokens ixs
          (O.shuffle (ixs.map (fun i => tokens.getD i default))) ~ tokens :=
        setAll_perm default ixs tokens _ hixsN hb hperm
      refine ⟨hres.length_eq, hres, ?_, (hres.filter isOptTok).map Token.value⟩
      intro j hj
      refine setAll_getD_not_mem ixs _ tokens j default ?_
      intro hmem
      have h2 : j ∈ optionIndices :=
        hsMem j (((sortNat_perm s).mem_iff).mp hmem)
      have h3 := (List.mem_filter.mp h2).2
      rw [hj] at h3
      exact Bool.false_ne_true h3

/-- C6, witness: the theorem applied to the tokens of `c -a -b` with a
passing gate, `sample` taking a front segment and `shuffle` reversing. -/
theorem c6_witness :
    (apply_option_reordering oracle0 (fun _ => 0)
        (tokenize_command "c -a -b".toList) (mkRat 2 5) 0).1.length =
      (tokenize_command "c -a -b".toList).length ∧
    (apply_option_reordering oracle0 (fun _ => 0)
        (tokenize_command "c -a -b".toList) (mkRat 2 5) 0).1 ~
      tokenize_command "c -a -b".toList ∧
    (∀ j, isOptTok ((tokenize_command "c -a -b".toList).getD j default) =
        false →
      (apply_option_reordering oracle0 (fun _ => 0)
          (tokenize_command "c -a -b".toList) (mkRat 2 5) 0).1.getD j
          default =
        (tokenize_command "c -a -b".toList).getD j default) ∧
    ((apply_option_reordering oracle0 (fun _ => 0)
        (tokenize_command "c -a -b".toList) (mkRat 2 5) 0).1.filter
          isOptTok).map Token.value ~
      ((tokenize_command "c -a -b".toList).filter isOptTok).map Token.value :=
  c6_option_reordering oracle0 (fun _ => 0)
    (tokenize_command "c -a -b".toList) (mkRat 2 5) 0
    (fun l => List.reverse_perm l)
    (fun pop n hnd =>
      ⟨List.Nodup.sublist (List.take_sublist n pop) hnd,
       fun _ hi => List.take_subset n pop hi⟩)

/-- C7: the `--output N` loop of `main` passes the same `techniques` list
object to every call, and `obfuscate_command` removes `OptionReordering`
and `OptionSeparatorDeletion` from it in place.  At the failing input
(command `a -x -y`, techniques `["OptionReordering"]`), the caller's list
is empty after the first call — the second call therefore falls back to
the full registry instead of the same selection. -/
theorem c7_technique_list_mutated :
    (obfuscate_command defaultTables oracle0 (fun _ => mkRat 1 2)
        "a -x -y".toList (some ["OptionReordering".toList])
        (fun _ => none)).2 = some [] ∧
    (some ([] : List (List Char))) ≠ some ["OptionReordering".toList] := by
  decide

theorem classify_not_reg (i : ℕ) (txt : List Char) :
    (classifyTok i txt).type ≠ TokenType.reg_path := by
  unfold classifyTok
  split_ifs with h1 h2 h3 h4 h5
  · simp
  · simp
  · simp
  · simp
  · exfalso
    apply h4
    left
    rcases h5 with h5 | h5
    · obtain ⟨rest, hrest⟩ := (List.isPrefixOf_iff_prefix.mp h5)
      rw [← hrest]
      exact List.mem_append_left rest (by decide)
    · obtain ⟨rest, hrest⟩ := (List.isPrefixOf_iff_prefix.mp h5)
      rw [← hrest]
      exact List.mem_append_left rest (by decide)
  · simp

/-- C10: the tokenizer never emits a `reg_path` token: a token passing the
`HKLM\`/`HKCU\` front test necessarily contains a backslash, so the earlier
path-separator branch already classified it `file_path`; the registry
branch of the classifier is unreachable. -/
theorem c10_reg_path_unreachable (s : List Char) (t : Token)
    (h : t ∈ tokenize_command s) : t.type ≠ TokenType.reg_path := by
  unfold tokenize_command at h
  obtain ⟨p, _, rfl⟩ := List.mem_map.mp h
  exact classify_not_reg p.1 p.2

/-- C10, witness: the token `HKLM\y` of the command `x HKLM\y` is present
in the tokenizer output (as a `file_path`) and is not a `reg_path`. -/
theorem c10_witness :
    (⟨TokenType.file_path, "HKLM\\y".toList⟩ : Token) ∈
      tokenize_command "x HKLM\\y".toList ∧
    (⟨TokenType.file_path, "HKLM\\y".toList⟩ : Token).type ≠
      TokenType.reg_path :=
  ⟨by decide,
   c10_reg_path_unreachable "x HKLM\\y".toList _ (by decide)⟩

/-- C1, counterexample: `random.random()` can return exactly 0, and the
gate `random.random() > probability` then passes even at probability 0.
With every probability forced to 0 and the draw stream `gSpike` (all draws
one half except draw 16, which is 0 — all within `[0,1)`), the
`ValueTransformation` gate for the token `192.168.1.1` passes and the
output differs from the space-joined original tokens. -/
theorem c1_counterexample :
    (obfuscate_command defaultTables oracle0 gSpike
        "ping 192.168.1.1".toList none (fun _ => some 0)).1 =
      "ping 3232235777".toList ∧
    joinSp ((tokenize_command "ping 192.168.1.1".toList).map Token.value) =
      "ping 192.168.1.1".toList ∧
    "ping 3232235777".toList ≠ "ping 192.168.1.1".toList := by
  decide

end Argfuscator
